import Mathlib

/-!
Verification of the callout-organizer core against its source.

Shallow embedding conventions:
* JS strings are modelled as `List Char` (named `Str`); a document's text is
  modelled as its list of lines (the source always works on
  `content.split('\n')`).
* Machine timestamps (`file.stat.mtime`, `Date.now()`) are `Int` parameters;
  the locale-dependent formatter `timestampToReadable` and its inverse are
  abstract function parameters, since their output only flows through
  equality/comparison in the verified code.
* JS truthiness of an optional string field is `none`/`""` falsy.
-/

namespace CalloutOrganizer

abbrev Str := List Char

/-- Characters of a Lean string literal, used to write concrete JS strings. -/
def charsOf (s : String) : Str := s.data

/-- JS `\s` / whitespace test used by `trim`, `\s?`, `\s*`. -/
def isWs (c : Char) : Bool := c.isWhitespace

/-- JS `String.prototype.trim` on our string model. -/
def trimStr (s : Str) : Str :=
  ((s.dropWhile isWs).reverse.dropWhile isWs).reverse

/-- JS `String.prototype.toLowerCase` (ASCII-relevant part). -/
def toLowerStr (s : Str) : Str := s.map Char.toLower

/-- `line.startsWith('>')` — the O(1) quick check of the scanner. -/
def startsGt : Str → Bool
  | '>' :: _ => true
  | _ => false

/-- `line.startsWith('#')` — guard before the heading regex. -/
def startsHash : Str → Bool
  | '#' :: _ => true
  | _ => false

/-- `\w` of `BLOCK_ID_REGEX`'s class `[\w-]`: ASCII letters, digits, `_`, `-`. -/
def isWordDash (c : Char) : Bool := c.isAlphanum || c = '_' || c = '-'

/-- JS truthiness of an optional string (`undefined` and `''` are falsy). -/
def optTruthy : Option Str → Bool
  | none => false
  | some s => !s.isEmpty

/-- `o || d` for an optional string `o` and default `d` (JS falsy fallback). -/
def truthyOr (o : Option Str) (d : Str) : Str :=
  match o with
  | none => d
  | some s => if s.isEmpty then d else s

/-- `line.includes('[!')`. -/
def hasBangBracket : Str → Bool
  | '[' :: '!' :: _ => true
  | _ :: t => hasBangBracket t
  | [] => false

/-- One heading record of the pre-computed heading stream
(`HeadingInfo` in the source); `lineNumber` is 1-based. -/
structure HeadingInfo where
  title : Str
  level : Nat
  lineNumber : Nat
deriving DecidableEq, Repr

/-- One callout record (`CalloutItem` in the source).  Fields the source
assigns only conditionally (`calloutID`, the three time strings) are
`Option`; `headers`/`headerLevels`/`outlinks` are assigned only when
non-empty, so the empty list models the absent field. -/
structure CalloutItem where
  file : Str
  type : Str
  title : Str
  content : Str
  lineNumber : Nat
  fileModTime : Option Str := none
  calloutCreatedTime : Option Str := none
  calloutModifyTime : Option Str := none
  calloutID : Option Str := none
  outlinks : List (Str × Str × Option Str) := []
  headers : List Str := []
  headerLevels : List Nat := []
deriving DecidableEq, Repr, Inhabited

/-- The persisted cache after loading (`CalloutCache` in the source);
`fileModTimes` is the JS object as an insertion-ordered association list. -/
structure CalloutCache where
  version : Str
  timestamp : Int
  vaultPath : Str
  callouts : List CalloutItem
  fileModTimes : List (Str × Str)
deriving DecidableEq, Repr

/-- `hasCalloutChanged` from `src/modules/utils.ts`: the callout counts as
changed when `type`, `title` or `content` differs. -/
def hasCalloutChanged (n e : CalloutItem) : Bool :=
  n.type ≠ e.type || n.title ≠ e.title || n.content ≠ e.content

/-- `HEADING_REGEX = /^(#{1,6})\s+(.+)$/` applied to one line; returns
`(level, title)` with `title = match[2].trim()` as the source stores it.
The regex matches iff the line starts with 1–6 `#`s followed by a
whitespace character and at least one further character; since `\s+` is
greedy and `(.+)` backtracks at most to one character, the trimmed capture
equals the trimmed remainder after the hashes. -/
def headingMatch (line : Str) : Option (Nat × Str) :=
  let hashes := (line.takeWhile (· = '#')).length
  let rest := line.drop hashes
  if 1 ≤ hashes ∧ hashes ≤ 6 then
    match rest with
    | c :: _ :: _ => if isWs c then some (hashes, trimStr rest) else none
    | _ => none
  else none

/-- `CALLOUT_REGEX = /^>\s*\[!([^\]]+)\]\s*(.*?)$/` applied to one line;
returns `(match[1], match[2].trim())`, i.e. the raw type capture and the
trimmed title.  The lazy `(.*?)$` capture is the whole remainder after the
greedy `\s*`, so its trim equals the trim of everything after `]`. -/
def calloutMatch (line : Str) : Option (Str × Str) :=
  match line with
  | '>' :: rest =>
    match rest.dropWhile isWs with
    | '[' :: '!' :: r2 =>
      let ty := r2.takeWhile (· ≠ ']')
      if ty.isEmpty then none
      else
        match r2.drop ty.length with
        | ']' :: r4 => some (ty, trimStr r4)
        | _ => none
    | _ => none
  | _ => none

/-- `BLOCK_ID_REGEX = /\^([\w-]+)\s*$/` on a stripped content line, paired
with the strip `contentLine.replace(/\s*\^[\w-]+\s*$/, '')`.  Matching from
the end: drop trailing whitespace, take the maximal `[\w-]` run, and require
a `^` right before it; the clean content additionally drops the whitespace
run preceding the `^`.  Returns `(match[1], cleanContent)`. -/
def blockIdMatch (line : Str) : Option (Str × Str) :=
  let r := line.reverse.dropWhile isWs
  let w := r.takeWhile isWordDash
  if w.isEmpty then none
  else
    match r.drop w.length with
    | '^' :: r2 => some (w.reverse, ((r2.dropWhile isWs).reverse))
    | _ => none

/-- `nextLine.replace(/^>\s?/, '')`: drop the leading `>` and at most one
whitespace character. -/
def stripQuote (line : Str) : Str :=
  match line with
  | '>' :: c :: t => if isWs c then t else c :: t
  | '>' :: [] => []
  | l => l

/-- The body-collection loop of `extractCalloutsFromFile` (the inner `for`
over `j`).  Returns `(contentLines, calloutID, count)` where `count` is the
number of lines consumed (`j - (i+1)` in the source) and `calloutID` is the
last block-id match in the consumed run (`''`, i.e. `[]`, when none). -/
def scanBody : List Str → List Str × Str × Nat
  | [] => ([], [], 0)
  | l :: rest =>
    if startsGt l then
      if hasBangBracket l ∧ (calloutMatch l).isSome then ([], [], 0)
      else
        let contentLine := stripQuote l
        let r := scanBody rest
        match blockIdMatch contentLine with
        | some (bid, clean) =>
          ((if clean.isEmpty then r.1 else clean :: r.1),
           (if r.2.1.isEmpty then bid else r.2.1),
           r.2.2 + 1)
        | none => (contentLine :: r.1, r.2.1, r.2.2 + 1)
    else if (trimStr l).isEmpty then
      let r := scanBody rest
      (r.1, r.2.1, r.2.2 + 1)
    else ([], [], 0)

/-- Heading pre-pass: collect `(title, level, lineNumber)` for every line
matched by `HEADING_REGEX`; `i` is the 0-based index of the first line. -/
def collectHeadersFrom : Nat → List Str → List HeadingInfo
  | _, [] => []
  | i, l :: ls =>
    if startsHash l then
      match headingMatch l with
      | some (lvl, t) => ⟨t, lvl, i + 1⟩ :: collectHeadersFrom (i + 1) ls
      | none => collectHeadersFrom (i + 1) ls
    else collectHeadersFrom (i + 1) ls

def collectHeaders (lines : List Str) : List HeadingInfo :=
  collectHeadersFrom 0 lines

/-- The hierarchy fold: before pushing a heading, pop every stack entry
whose level is `≥` the incoming heading's level. -/
def hierPush (acc : List HeadingInfo) (h : HeadingInfo) : List HeadingInfo :=
  ((acc.reverse.dropWhile (fun x => h.level ≤ x.level)).reverse) ++ [h]

def buildHierarchy (hs : List HeadingInfo) : List HeadingInfo :=
  hs.foldl hierPush []

/-- `content.join('\n')`. -/
def joinLines : List Str → Str
  | [] => []
  | [l] => l
  | l :: ls => l ++ '\n' :: joinLines ls

/-- The part of the outlink regex
`\[\[([^\]]+?)#\^([^\]|]+?)(?:\|([^\]]+?))?\]\]` after `#\^`: the id capture
is the maximal run without `]`/`|` (lazy growth can stop only at those
characters), then either `]]` directly or `|label]]` with the label the
maximal run without `]`.  Returns `(id, label?, rest-after-the-match)`. -/
def postIdParse (s : Str) : Option (Str × Option Str × Str) :=
  let id := s.takeWhile (fun c => c ≠ ']' ∧ c ≠ '|')
  if id.isEmpty then none
  else
    match s.drop id.length with
    | c :: t =>
      if c = ']' then
        match t with
        | c2 :: r => if c2 = ']' then some (id, none, r) else none
        | [] => none
      else if c = '|' then
        let lab := t.takeWhile (fun c3 => c3 ≠ ']')
        if lab.isEmpty then none
        else
          match t.drop lab.length with
          | c2 :: t2 =>
            if c2 = ']' then
              match t2 with
              | c3 :: r => if c3 = ']' then some (id, some lab, r) else none
              | [] => none
            else none
          | [] => none
      else none
    | [] => none

theorem takeWhileLengthLe (p : Char → Bool) (l : Str) :
    (l.takeWhile p).length ≤ l.length := by
  induction l with
  | nil => simp
  | cons a t ih =>
    by_cases h : p a
    · simp only [List.takeWhile_cons, h, if_true, List.length_cons]
      omega
    · simp [List.takeWhile_cons, h]

theorem dropConsLength {l : Str} {n : Nat} {c : Char} {t : Str}
    (h : l.drop n = c :: t) (hn : n ≤ l.length) : l.length = n + 1 + t.length := by
  have := List.length_drop n l
  rw [h] at this
  simp at this
  omega

theorem postIdParse_length {s : Str} {idl : Str × Option Str × Str}
    (h : postIdParse s = some idl) : idl.2.2.length < s.length := by
  have hid := takeWhileLengthLe (fun c => decide (c ≠ ']' ∧ c ≠ '|')) s
  unfold postIdParse at h
  dsimp only at h
  by_cases hne : (s.takeWhile (fun c => decide (c ≠ ']' ∧ c ≠ '|'))).isEmpty
  · rw [if_pos hne] at h
    exact absurd h (by simp)
  · rw [if_neg hne] at h
    rcases hdrop : s.drop (s.takeWhile (fun c => decide (c ≠ ']' ∧ c ≠ '|'))).length
        with _ | ⟨c, t⟩ <;> rw [hdrop] at h
    · exact absurd h (by simp)
    · have hs := dropConsLength hdrop hid
      dsimp only at h
      by_cases hc : c = ']'
      · rw [if_pos hc] at h
        rcases t with _ | ⟨c2, r⟩
        · exact absurd h (by simp)
        · try dsimp only at h
          by_cases hc2 : c2 = ']'
          · rw [if_pos hc2] at h
            simp only [Option.some.injEq] at h
            subst h
            simp only [List.length_cons] at hs ⊢
            omega
          · rw [if_neg hc2] at h
            exact absurd h (by simp)
      · by_cases hc3 : c = '|'
        · rw [if_neg hc, if_pos hc3] at h
          try dsimp only at h
          have hlabLe := takeWhileLengthLe (fun c3 => decide (c3 ≠ ']')) t
          by_cases hlabE : (t.takeWhile (fun c3 => decide (c3 ≠ ']'))).isEmpty
          · rw [if_pos hlabE] at h
            exact absurd h (by simp)
          · rw [if_neg hlabE] at h
            rcases hd2 : t.drop (t.takeWhile (fun c3 => decide (c3 ≠ ']'))).length
                with _ | ⟨c2, t2⟩ <;> rw [hd2] at h
            · exact absurd h (by simp)
            · have ht := dropConsLength hd2 hlabLe
              try dsimp only at h
              by_cases hc2 : c2 = ']'
              · rw [if_pos hc2] at h
                rcases t2 with _ | ⟨c3, r⟩
                · exact absurd h (by simp)
                · try dsimp only at h
                  by_cases hc3r : c3 = ']'
                  · rw [if_pos hc3r] at h
                    simp only [Option.some.injEq] at h
                    subst h
                    simp only [List.length_cons] at hs ht ⊢
                    omega
                  · rw [if_neg hc3r] at h
                    exact absurd h (by simp)
              · rw [if_neg hc2] at h
                exact absurd h (by simp)
        · rw [if_neg hc, if_neg hc3] at h
          exact absurd h (by simp)

/-- The lazy filename capture `([^\]]+?)` of the outlink regex: grow the
filename from the shortest candidate; at every `#^` occurrence try the id
part (`postIdParse`), and on failure keep growing the filename through the
`#` (the class `[^\]]` excludes only `]`).  A `]` or the end of the text
before a successful split means no match at this start position.  The
first argument is structural-recursion fuel; every step consumes exactly
one character, so `s.length` fuel is always enough (see `findFile`). -/
def findFileAux : Nat → Str → Str → Option (Str × Str × Option Str × Str)
  | 0, _, _ => none
  | fuel + 1, acc, s =>
    match s with
    | '#' :: '^' :: t =>
      if acc.isEmpty then findFileAux fuel (acc ++ ['#']) ('^' :: t)
      else
        match postIdParse t with
        | some (id, lab, r) => some (acc, id, lab, r)
        | none => findFileAux fuel (acc ++ ['#']) ('^' :: t)
    | c :: t => if c = ']' then none else findFileAux fuel (acc ++ [c]) t
    | [] => none

def findFile (acc s : Str) : Option (Str × Str × Option Str × Str) :=
  findFileAux s.length acc s

theorem findFileAux_length :
    ∀ (fuel : Nat) (acc s : Str) (res : Str × Str × Option Str × Str),
      findFileAux fuel acc s = some res → res.2.2.2.length < s.length := by
  intro fuel
  induction fuel with
  | zero =>
    intro acc s res h
    simp [findFileAux] at h
  | succ n ih =>
    intro acc s res h
    rw [findFileAux.eq_def] at h
    dsimp only at h
    split at h
    · split at h
      · have := ih _ _ _ h
        simp only [List.length_cons] at this ⊢
        omega
      · split at h
        · rename_i id lab r hpost
          simp only [Option.some.injEq] at h
          subst h
          have hb := postIdParse_length hpost
          simp only at hb
          simp only [List.length_cons]
          omega
        · have := ih _ _ _ h
          simp only [List.length_cons] at this ⊢
          omega
    · split at h
      · exact absurd h (by simp)
      · have := ih _ _ _ h
        simp only [List.length_cons] at this ⊢
        omega
    · exact absurd h (by simp)

theorem findFile_length (acc s : Str) :
    ∀ res : Str × Str × Option Str × Str,
      findFile acc s = some res → res.2.2.2.length < s.length := by
  intro res h
  exact findFileAux_length s.length acc s res h

/-- One attempt of the outlink regex at the current scan position: must
start with `[[`, then filename/id/label via `findFile`; the filename is
normalized with the `.md` extension as in `extractOutlinksFromContent`. -/
def matchLinkAt (s : Str) : Option ((Str × Str × Option Str) × Str) :=
  match s with
  | '[' :: '[' :: t =>
    match findFile [] t with
    | some (f, id, lab, r) =>
      let fn := if f.reverse.take 3 = ['d', 'm', '.'] then f else f ++ charsOf ".md"
      some ((fn, id, lab), r)
    | none => none
  | _ => none

theorem matchLinkAt_length {s : Str} {lkr : (Str × Str × Option Str) × Str}
    (h : matchLinkAt s = some lkr) : lkr.2.length < s.length := by
  unfold matchLinkAt at h
  split at h
  · rename_i t
    split at h
    · rename_i f id lab r hff
      have hl := findFile_length [] _ _ hff
      simp only at hl
      simp only [Option.some.injEq] at h
      subst h
      simp only [List.length_cons]
      omega
    · exact absurd h (by simp)
  · exact absurd h (by simp)

/-- `extractOutlinksFromContent` from `src/unnamed/part_003` (lines
258–279): the `while ((match = linkRegex.exec(content)) !== null)` loop.
`exec` finds the leftmost match from the current position and advances past
it; the loop body pushes `[filename, calloutID, label]` after the `.md`
normalization.  Note: the source loop has NO iteration cap and no
zero-width-match guard; the loop nevertheless terminates on every input
because each match consumes at least one character, so the fuel
`content.length` used by the wrapper below never runs out
(`extractOutlinksAux_fuel`). -/
def extractOutlinksAux : Nat → Str → List (Str × Str × Option Str)
  | 0, _ => []
  | fuel + 1, s =>
    match matchLinkAt s, s with
    | some lkr, _ => lkr.1 :: extractOutlinksAux fuel lkr.2
    | none, [] => []
    | none, _ :: t => extractOutlinksAux fuel t

def extractOutlinksFromContent (content : Str) : List (Str × Str × Option Str) :=
  extractOutlinksAux content.length content

/-- The fuel is irrelevant as long as it bounds the remaining length. -/
theorem extractOutlinksAux_fuel :
    ∀ (f1 f2 : Nat) (s : Str), s.length ≤ f1 → s.length ≤ f2 →
      extractOutlinksAux f1 s = extractOutlinksAux f2 s := by
  intro f1
  induction f1 with
  | zero =>
    intro f2 s h1 h2
    have hs : s = [] := by
      rcases s with _ | ⟨c, t⟩
      · rfl
      · simp at h1
    subst hs
    rcases f2 with _ | f2
    · rfl
    · rfl
  | succ n ih =>
    intro f2 s h1 h2
    rcases f2 with _ | f2
    · have hs : s = [] := by
        rcases s with _ | ⟨c, t⟩
        · rfl
        · simp at h2
      subst hs
      rfl
    · rcases hml : matchLinkAt s with _ | lkr
      · rcases s with _ | ⟨c, t⟩
        · rfl
        · have e1 : extractOutlinksAux (n + 1) (c :: t) = extractOutlinksAux n t := by
            rw [extractOutlinksAux.eq_def]
            dsimp only
            rw [hml]
          have e2 : extractOutlinksAux (f2 + 1) (c :: t) = extractOutlinksAux f2 t := by
            rw [extractOutlinksAux.eq_def]
            dsimp only
            rw [hml]
          rw [e1, e2]
          exact ih f2 t (by simp at h1; omega) (by simp at h2; omega)
      · have hlt := matchLinkAt_length hml
        have e1 : extractOutlinksAux (n + 1) s = lkr.1 :: extractOutlinksAux n lkr.2 := by
          rw [extractOutlinksAux.eq_def]
          dsimp only
          rw [hml]
        have e2 : extractOutlinksAux (f2 + 1) s = lkr.1 :: extractOutlinksAux f2 lkr.2 := by
          rw [extractOutlinksAux.eq_def]
          dsimp only
          rw [hml]
        rw [e1, e2, ih f2 lkr.2 (by omega) (by omega)]

/-- Step 6 of the parse: creation/modification time resolution for one
callout (`extractCalloutsFromFile`, part_003 lines 176–206).  `mtimeR` and
`nowR` are `timestampToReadable(fileModTime)` / `(Date.now())`. -/
def resolveTimes (path ty title content : Str) (lineNo : Nat)
    (mtimeR nowR : Str) (cache : Option CalloutCache) (cid : Str) : Str × Str :=
  match cache with
  | some cc =>
    if cid.isEmpty then (mtimeR, mtimeR)
    else
      match cc.callouts.find? (fun c => decide (c.calloutID = some cid ∧ c.file = path)) with
      | some ex =>
        let prelim : CalloutItem :=
          { file := path, type := ty, title := title, content := content,
            lineNumber := lineNo, fileModTime := some mtimeR }
        (truthyOr ex.calloutCreatedTime nowR,
         if hasCalloutChanged prelim ex then nowR else truthyOr ex.calloutModifyTime nowR)
      | none => (nowR, nowR)
  | none => (mtimeR, mtimeR)

/-- The main scanner loop of `extractCalloutsFromFile` over the lines,
instrumented: each emitted element is `(item, headerLine, count)` where
`headerLine` is the 1-based line number of the callout's header line and
`count` the number of body lines consumed.  `idx` is the 0-based index of
the first line of the remaining suffix.  Lines that do not match the
callout header grammar are skipped (the `startsWith('>')` quick check is
subsumed by `calloutMatch`, whose pattern requires a leading `>`).  The
`fuel` argument makes the recursion structural; every step consumes at
least one line, so the wrapper's `lines.length` fuel never runs out. -/
def extractFrom (allHeaders : List HeadingInfo) (path : Str) (mtimeR nowR : Str)
    (cache : Option CalloutCache) : Nat → Nat → List Str → List (CalloutItem × Nat × Nat)
  | 0, _, _ => []
  | _ + 1, _, [] => []
  | fuel + 1, idx, l :: rest =>
    match calloutMatch l with
    | none => extractFrom allHeaders path mtimeR nowR cache fuel (idx + 1) rest
    | some (tyRaw, title) =>
      let sb := scanBody rest
      let cid := sb.2.1
      let count := sb.2.2
      let ty := toLowerStr tyRaw
      let lineNo := idx + 1 + count
      let hier := buildHierarchy (allHeaders.filter (fun h => h.lineNumber ≤ lineNo))
      let content := trimStr (joinLines sb.1)
      let times := resolveTimes path ty title content lineNo mtimeR nowR cache cid
      let item : CalloutItem :=
        { file := path, type := ty, title := title, content := content,
          lineNumber := lineNo,
          fileModTime := some mtimeR,
          calloutCreatedTime := some times.1,
          calloutModifyTime := some times.2,
          calloutID := if cid.isEmpty then none else some cid,
          outlinks := extractOutlinksFromContent content,
          headers := hier.map (fun h => h.title),
          headerLevels := hier.map (fun h => h.level) }
      (item, idx + 1, count) ::
        extractFrom allHeaders path mtimeR nowR cache fuel (idx + 1 + count) (rest.drop count)

/-- `extractCalloutsFromFile` instrumented with header line and body count. -/
def extractCalloutsExt (path : Str) (lines : List Str) (mtimeR nowR : Str)
    (cache : Option CalloutCache) : List (CalloutItem × Nat × Nat) :=
  extractFrom (collectHeaders lines) path mtimeR nowR cache lines.length 0 lines

/-- `CalloutParser.extractCalloutsFromFile` (src/unnamed/part_003, lines
76–238) as a pure function of the document path, its lines, the readable
file modification time, the readable current time, and the optional prior
cache. -/
def extractCalloutsFromFile (path : Str) (lines : List Str) (mtimeR nowR : Str)
    (cache : Option CalloutCache) : List CalloutItem :=
  (extractCalloutsExt path lines mtimeR nowR cache).map (fun t => t.1)

theorem trimStr_all_ws {l : Str} (h : (trimStr l).isEmpty = true) : ∀ c ∈ l, isWs c = true := by
  intro c hc
  unfold trimStr at h
  simp only [List.isEmpty_eq_true, List.reverse_eq_nil_iff] at h
  rw [List.dropWhile_eq_nil_iff] at h
  have h2 : ∀ x ∈ l.dropWhile isWs, isWs x = true := by
    intro x hx
    exact h x (List.mem_reverse.mpr hx)
  have hsplit := List.takeWhile_append_dropWhile (p := isWs) (l := l)
  have hc2 : c ∈ l.takeWhile isWs ++ l.dropWhile isWs := by rw [hsplit]; exact hc
  rcases List.mem_append.mp hc2 with h3 | h3
  · exact List.mem_takeWhile_imp h3
  · exact h2 c h3

theorem headingMatch_head {l : Str} {x : Nat × Str} (h : headingMatch l = some x) :
    ∃ t, l = '#' :: t := by
  rcases l with _ | ⟨c, t⟩
  · simp [headingMatch] at h
  · by_cases hc : c = '#'
    · exact ⟨t, by rw [hc]⟩
    · exfalso
      unfold headingMatch at h
      rw [List.takeWhile_cons] at h
      have hd : (decide (c = '#')) = false := by simp [hc]
      rw [hd] at h
      simp at h

theorem headingMatch_not_quoted_blank {l : Str} {x : Nat × Str}
    (h : headingMatch l = some x) :
    startsGt l = false ∧ (trimStr l).isEmpty = false := by
  obtain ⟨t, rfl⟩ := headingMatch_head h
  refine ⟨rfl, ?_⟩
  by_contra hb
  simp only [Bool.not_eq_false] at hb
  have h1 := trimStr_all_ws hb '#' (by simp)
  exact absurd h1 (by decide)

theorem collectHeadersFrom_mem {i : Nat} {ls : List Str} {h : HeadingInfo}
    (hm : h ∈ collectHeadersFrom i ls) :
    ∃ j l, ls.get? j = some l ∧ h.lineNumber = i + j + 1 ∧
      headingMatch l = some (h.level, h.title) := by
  induction ls generalizing i with
  | nil => simp [collectHeadersFrom] at hm
  | cons l ls ih =>
    rw [collectHeadersFrom] at hm
    split at hm
    · rename_i hhash
      split at hm
      · rename_i lvl t hmatch
        rcases List.mem_cons.mp hm with heq | htail
        · subst heq
          exact ⟨0, l, by simp, by simp, by simpa using hmatch⟩
        · obtain ⟨j, l', h1, h2, h3⟩ := ih htail
          exact ⟨j + 1, l', by simpa using h1, by omega, h3⟩
      · obtain ⟨j, l', h1, h2, h3⟩ := ih hm
        exact ⟨j + 1, l', by simpa using h1, by omega, h3⟩
    · obtain ⟨j, l', h1, h2, h3⟩ := ih hm
      exact ⟨j + 1, l', by simpa using h1, by omega, h3⟩

theorem scanBody_consumed (ls : List Str) :
    ∀ l ∈ ls.take (scanBody ls).2.2,
      startsGt l = true ∨ (trimStr l).isEmpty = true := by
  induction ls with
  | nil => simp
  | cons l rest ih =>
    rw [scanBody]
    by_cases hgt : startsGt l
    · rw [if_pos hgt]
      by_cases hbrk : hasBangBracket l ∧ (calloutMatch l).isSome
      · rw [if_pos hbrk]
        simp
      · rw [if_neg hbrk]
        dsimp only
        rcases hbid : blockIdMatch (stripQuote l) with _ | ⟨bid, clean⟩
        · simp only [List.take_succ_cons]
          intro x hx
          rcases List.mem_cons.mp hx with rfl | hx2
          · exact Or.inl hgt
          · exact ih x hx2
        · simp only [List.take_succ_cons]
          intro x hx
          rcases List.mem_cons.mp hx with rfl | hx2
          · exact Or.inl hgt
          · exact ih x hx2
    · rw [if_neg hgt]
      by_cases hbl : (trimStr l).isEmpty
      · rw [if_pos hbl]
        dsimp only
        simp only [List.take_succ_cons]
        intro x hx
        rcases List.mem_cons.mp hx with rfl | hx2
        · exact Or.inr hbl
        · exact ih x hx2
      · rw [if_neg hbl]
        simp

/-- Invariant of the main scanner: for every emitted `(item, headerLine,
count)`, the stored `lineNumber` is `headerLine + count`, the heading
hierarchy is the stack fold over the headings at or before the *header*
line (the code filters with the end line `headerLine + count`, but no
heading can occur among the consumed body lines, which all start with `>`
or are blank), and every consumed body line indeed starts with `>` or is
blank. -/
theorem extractFrom_spec (path mR nR : Str) (cache : Option CalloutCache)
    (lines : List Str) :
    ∀ n idx s, s.length ≤ n → s = lines.drop idx →
      ∀ trip ∈ extractFrom (collectHeaders lines) path mR nR cache n idx s,
        trip.1.lineNumber = trip.2.1 + trip.2.2 ∧
        trip.1.headers = (buildHierarchy ((collectHeaders lines).filter
            (fun hh => hh.lineNumber ≤ trip.2.1))).map (fun hh => hh.title) ∧
        trip.1.headerLevels = (buildHierarchy ((collectHeaders lines).filter
            (fun hh => hh.lineNumber ≤ trip.2.1))).map (fun hh => hh.level) ∧
        ∀ l ∈ (lines.drop trip.2.1).take trip.2.2,
          startsGt l = true ∨ (trimStr l).isEmpty = true := by
  intro n
  induction n with
  | zero =>
    intro idx s hlen hdrop trip hm
    rw [extractFrom] at hm
    simp at hm
  | succ n ih =>
    intro idx s hlen hdrop trip hm
    rcases s with _ | ⟨l, rest⟩
    · rw [extractFrom] at hm
      simp at hm
    · have hrest : rest = lines.drop (idx + 1) := by
        have h1 : lines.drop (idx + 1) = (lines.drop idx).drop 1 := by
          rw [List.drop_drop]
        rw [h1, ← hdrop]
        simp
      rw [extractFrom] at hm
      rcases hcm : calloutMatch l with _ | ⟨tyRaw, title⟩
      · rw [hcm] at hm
        exact ih (idx + 1) rest (by simp at hlen; omega) hrest trip hm
      · rw [hcm] at hm
        dsimp only at hm
        rcases List.mem_cons.mp hm with heq | htail
        · subst heq
          dsimp only
          refine ⟨rfl, ?_, ?_, ?_⟩
          · have hfilt : (collectHeaders lines).filter
                (fun hh => decide (hh.lineNumber ≤ idx + 1 + (scanBody rest).2.2)) =
                (collectHeaders lines).filter
                (fun hh => decide (hh.lineNumber ≤ idx + 1)) := by
              apply List.filter_congr
              intro hh hmem
              by_cases h1 : hh.lineNumber ≤ idx + 1
              · have h2 : hh.lineNumber ≤ idx + 1 + (scanBody rest).2.2 := by omega
                simp [h1, h2]
              · by_cases h2 : hh.lineNumber ≤ idx + 1 + (scanBody rest).2.2
                · exfalso
                  obtain ⟨j, l', hg, hln, hmatch⟩ := collectHeadersFrom_mem hmem
                  have hj1 : idx + 1 ≤ j := by omega
                  have hj2 : j - (idx + 1) < (scanBody rest).2.2 := by omega
                  have hg2 : rest.get? (j - (idx + 1)) = some l' := by
                    rw [hrest, List.get?_drop]
                    have : idx + 1 + (j - (idx + 1)) = j := by omega
                    rw [this]
                    simpa using hg
                  have hmemtake : l' ∈ rest.take (scanBody rest).2.2 := by
                    have : (rest.take (scanBody rest).2.2).get? (j - (idx + 1)) = some l' := by
                      rw [List.get?_take hj2]
                      exact hg2
                    exact List.get?_mem this
                  have hqb := scanBody_consumed rest l' hmemtake
                  have hnqb := headingMatch_not_quoted_blank hmatch
                  rcases hqb with hq | hb
                  · rw [hnqb.1] at hq
                    exact Bool.false_ne_true hq
                  · rw [hnqb.2] at hb
                    exact Bool.false_ne_true hb
                · simp [h1, h2]
            simp only [hfilt]
          · have hfilt : (collectHeaders lines).filter
                (fun hh => decide (hh.lineNumber ≤ idx + 1 + (scanBody rest).2.2)) =
                (collectHeaders lines).filter
                (fun hh => decide (hh.lineNumber ≤ idx + 1)) := by
              apply List.filter_congr
              intro hh hmem
              by_cases h1 : hh.lineNumber ≤ idx + 1
              · have h2 : hh.lineNumber ≤ idx + 1 + (scanBody rest).2.2 := by omega
                simp [h1, h2]
              · by_cases h2 : hh.lineNumber ≤ idx + 1 + (scanBody rest).2.2
                · exfalso
                  obtain ⟨j, l', hg, hln, hmatch⟩ := collectHeadersFrom_mem hmem
                  have hj1 : idx + 1 ≤ j := by omega
                  have hj2 : j - (idx + 1) < (scanBody rest).2.2 := by omega
                  have hg2 : rest.get? (j - (idx + 1)) = some l' := by
                    rw [hrest, List.get?_drop]
                    have : idx + 1 + (j - (idx + 1)) = j := by omega
                    rw [this]
                    simpa using hg
                  have hmemtake : l' ∈ rest.take (scanBody rest).2.2 := by
                    have : (rest.take (scanBody rest).2.2).get? (j - (idx + 1)) = some l' := by
                      rw [List.get?_take hj2]
                      exact hg2
                    exact List.get?_mem this
                  have hqb := scanBody_consumed rest l' hmemtake
                  have hnqb := headingMatch_not_quoted_blank hmatch
                  rcases hqb with hq | hb
                  · rw [hnqb.1] at hq
                    exact Bool.false_ne_true hq
                  · rw [hnqb.2] at hb
                    exact Bool.false_ne_true hb
                · simp [h1, h2]
            simp only [hfilt]
          · intro l' hl'
            rw [← hrest] at hl'
            exact scanBody_consumed rest l' hl'
        · have hdrop2 : rest.drop (scanBody rest).2.2 =
              lines.drop (idx + 1 + (scanBody rest).2.2) := by
            rw [hrest, List.drop_drop]
          have hlen2 : (rest.drop (scanBody rest).2.2).length ≤ n := by
            simp only [List.length_drop]
            simp at hlen
            omega
          exact ih (idx + 1 + (scanBody rest).2.2) (rest.drop (scanBody rest).2.2)
            hlen2 hdrop2 trip htail

/-- Every emitted item's `file` is the scanned path, `fileModTime` is the
readable file mtime, and its two callout times are exactly the output of
the step-6 time resolution applied to the item's own fields. -/
theorem extractFrom_fields (AH : List HeadingInfo) (path mR nR : Str)
    (cache : Option CalloutCache) :
    ∀ n idx s, s.length ≤ n →
      ∀ trip ∈ extractFrom AH path mR nR cache n idx s,
        trip.1.file = path ∧ trip.1.fileModTime = some mR ∧
        ∃ cid : Str,
          trip.1.calloutID = (if cid.isEmpty then none else some cid) ∧
          trip.1.calloutCreatedTime = some (resolveTimes path trip.1.type trip.1.title
            trip.1.content trip.1.lineNumber mR nR cache cid).1 ∧
          trip.1.calloutModifyTime = some (resolveTimes path trip.1.type trip.1.title
            trip.1.content trip.1.lineNumber mR nR cache cid).2 := by
  intro n
  induction n with
  | zero =>
    intro idx s hlen trip hm
    rw [extractFrom] at hm
    simp at hm
  | succ n ih =>
    intro idx s hlen trip hm
    rcases s with _ | ⟨l, rest⟩
    · rw [extractFrom] at hm
      simp at hm
    · rw [extractFrom] at hm
      rcases hcm : calloutMatch l with _ | ⟨tyRaw, title⟩
      · rw [hcm] at hm
        exact ih (idx + 1) rest (by simp at hlen; omega) trip hm
      · rw [hcm] at hm
        dsimp only at hm
        rcases List.mem_cons.mp hm with heq | htail
        · subst heq
          exact ⟨rfl, rfl, (scanBody rest).2.1, rfl, rfl, rfl⟩
        · exact ih (idx + 1 + (scanBody rest).2.2) (rest.drop (scanBody rest).2.2)
            (by simp only [List.length_drop]; simp at hlen; omega) trip htail

/-- Both outputs of the time resolution are non-empty strings whenever the
readable mtime and current time are. -/
theorem resolveTimes_ne_empty (path ty title content : Str) (lineNo : Nat)
    {mR nR : Str} (hm : mR.isEmpty = false) (hn : nR.isEmpty = false)
    (cache : Option CalloutCache) (cid : Str) :
    (resolveTimes path ty title content lineNo mR nR cache cid).1.isEmpty = false ∧
    (resolveTimes path ty title content lineNo mR nR cache cid).2.isEmpty = false := by
  unfold resolveTimes
  rcases cache with _ | cc
  · exact ⟨hm, hm⟩
  · dsimp only
    by_cases hcid : cid.isEmpty
    · rw [if_pos hcid]
      exact ⟨hm, hm⟩
    · rw [if_neg hcid]
      rcases hfind : cc.callouts.find? (fun c => decide (c.calloutID = some cid ∧ c.file = path))
          with _ | ex <;> rw [hfind]
      · exact ⟨hn, hn⟩
      · dsimp only
        constructor
        · unfold truthyOr
          rcases ex.calloutCreatedTime with _ | s
          · exact hn
          · dsimp only
            by_cases hs : s.isEmpty
            · rw [if_pos hs]; exact hn
            · rw [if_neg hs]; simpa using hs
        · by_cases hch : hasCalloutChanged
              { file := path, type := ty, title := title, content := content,
                lineNumber := lineNo, fileModTime := some mR } ex
          · rw [if_pos hch]; exact hn
          · rw [if_neg hch]
            unfold truthyOr
            rcases ex.calloutModifyTime with _ | s
            · exact hn
            · dsimp only
              by_cases hs : s.isEmpty
              · rw [if_pos hs]; exact hn
              · rw [if_neg hs]; simpa using hs

/-- In a list whose identified callout ids are pairwise distinct, `find?`
with the identity predicate returns exactly the known member. -/
theorem find?_of_unique_id {path cid : Str} {x : CalloutItem} :
    ∀ items : List CalloutItem,
      (items.filterMap (fun c => c.calloutID)).Nodup →
      x ∈ items → x.calloutID = some cid → x.file = path →
      items.find? (fun c => decide (c.calloutID = some cid ∧ c.file = path)) = some x := by
  intro items
  induction items with
  | nil => intro _ hx; simp at hx
  | cons y t ih =>
    intro hnd hx hid hfile
    by_cases hy : (y.calloutID = some cid ∧ y.file = path)
    · have hyx : y = x := by
        rcases List.mem_cons.mp hx with rfl | hxt
        · rfl
        · exfalso
          have hcidt : cid ∈ t.filterMap (fun c => c.calloutID) := by
            exact List.mem_filterMap.mpr ⟨x, hxt, hid⟩
          have : (List.filterMap (fun c => c.calloutID) (y :: t)) =
              cid :: t.filterMap (fun c => c.calloutID) := by
            rw [List.filterMap_cons]
            rw [hy.1]
          rw [this] at hnd
          exact (List.nodup_cons.mp hnd).1 hcidt
      rw [List.find?_cons_of_pos _ (by simpa using hy), hyx]
    · have hxt : x ∈ t := by
        rcases List.mem_cons.mp hx with rfl | hxt
        · exact absurd ⟨hid, hfile⟩ hy
        · exact hxt
      have hndt : (t.filterMap (fun c => c.calloutID)).Nodup := by
        rcases hyid : y.calloutID with _ | z
        · have : (List.filterMap (fun c => c.calloutID) (y :: t)) =
              t.filterMap (fun c => c.calloutID) := by
            rw [List.filterMap_cons, hyid]
          rwa [this] at hnd
        · have : (List.filterMap (fun c => c.calloutID) (y :: t)) =
              z :: t.filterMap (fun c => c.calloutID) := by
            rw [List.filterMap_cons, hyid]
          rw [this] at hnd
          exact (List.nodup_cons.mp hnd).2
      rw [List.find?_cons_of_neg _ (by simpa using hy)]
      exact ih hndt hxt hid hfile

/-- `hasCalloutChanged` reads only `type`, `title` and `content`. -/
theorem hasCalloutChanged_eq_fields {n1 n2 e : CalloutItem}
    (ht : n1.type = n2.type) (hti : n1.title = n2.title) (hc : n1.content = n2.content) :
    hasCalloutChanged n1 e = hasCalloutChanged n2 e := by
  unfold hasCalloutChanged
  rw [ht, hti, hc]

/-- Re-parsing against a cache that contains exactly the previous parse of
the same unchanged document reproduces the previous records verbatim; the
current-time argument of the second parse is irrelevant.  The hypothesis
feeds every already-emitted record back as a cache member; ids must be
unique within the cached records (the spec's `(document_path, id)`
uniqueness invariant). -/
theorem extract_idem_aux (AH : List HeadingInfo) (path mR n1R n2R : Str)
    (c0 : Option CalloutCache) (cc : CalloutCache)
    (hm : mR.isEmpty = false) (h1 : n1R.isEmpty = false)
    (hnd : (cc.callouts.filterMap (fun c => c.calloutID)).Nodup) :
    ∀ n idx s, s.length ≤ n →
      (∀ trip ∈ extractFrom AH path mR n1R c0 n idx s, trip.1 ∈ cc.callouts) →
      extractFrom AH path mR n2R (some cc) n idx s =
        extractFrom AH path mR n1R c0 n idx s := by
  intro n
  induction n with
  | zero =>
    intro idx s hlen hmem
    rw [extractFrom, extractFrom]
  | succ n ih =>
    intro idx s hlen hmem
    rcases s with _ | ⟨l, rest⟩
    · rw [extractFrom, extractFrom]
    · rcases hcm : calloutMatch l with _ | ⟨tyRaw, title⟩
      · have hmem2 : ∀ trip ∈ extractFrom AH path mR n1R c0 n (idx + 1) rest,
            trip.1 ∈ cc.callouts := by
          intro trip htr
          apply hmem
          rw [extractFrom, hcm]
          exact htr
        conv_lhs => rw [extractFrom]
        conv_rhs => rw [extractFrom]
        rw [hcm]
        exact ih (idx + 1) rest (by simp at hlen; omega) hmem2
      · have hexp : extractFrom AH path mR n1R c0 (n + 1) idx (l :: rest) =
            ({ file := path, type := toLowerStr tyRaw, title := title,
               content := trimStr (joinLines (scanBody rest).1),
               lineNumber := idx + 1 + (scanBody rest).2.2,
               fileModTime := some mR,
               calloutCreatedTime := some (resolveTimes path (toLowerStr tyRaw) title
                 (trimStr (joinLines (scanBody rest).1)) (idx + 1 + (scanBody rest).2.2)
                 mR n1R c0 (scanBody rest).2.1).1,
               calloutModifyTime := some (resolveTimes path (toLowerStr tyRaw) title
                 (trimStr (joinLines (scanBody rest).1)) (idx + 1 + (scanBody rest).2.2)
                 mR n1R c0 (scanBody rest).2.1).2,
               calloutID := if (scanBody rest).2.1.isEmpty then none else some (scanBody rest).2.1,
               outlinks := extractOutlinksFromContent (trimStr (joinLines (scanBody rest).1)),
               headers := (buildHierarchy ((AH).filter
                 (fun hh => hh.lineNumber ≤ idx + 1 + (scanBody rest).2.2))).map (fun hh => hh.title),
               headerLevels := (buildHierarchy ((AH).filter
                 (fun hh => hh.lineNumber ≤ idx + 1 + (scanBody rest).2.2))).map (fun hh => hh.level) },
             idx + 1, (scanBody rest).2.2) ::
            extractFrom AH path mR n1R c0 n (idx + 1 + (scanBody rest).2.2)
              (rest.drop (scanBody rest).2.2) := by
          rw [extractFrom, hcm]
        have hmem2 : ∀ trip ∈ extractFrom AH path mR n1R c0 n (idx + 1 + (scanBody rest).2.2)
              (rest.drop (scanBody rest).2.2), trip.1 ∈ cc.callouts := by
          intro trip htr
          apply hmem
          rw [hexp]
          exact List.mem_cons_of_mem _ htr
        have hhead := hmem _ (by rw [hexp]; exact List.mem_cons_self _ _)
        have hres : resolveTimes path (toLowerStr tyRaw) title
            (trimStr (joinLines (scanBody rest).1)) (idx + 1 + (scanBody rest).2.2)
            mR n2R (some cc) (scanBody rest).2.1 =
            resolveTimes path (toLowerStr tyRaw) title
            (trimStr (joinLines (scanBody rest).1)) (idx + 1 + (scanBody rest).2.2)
            mR n1R c0 (scanBody rest).2.1 := by
          by_cases hcid : (scanBody rest).2.1.isEmpty
          · conv_lhs => rw [resolveTimes]
            rw [if_pos hcid]
            rcases c0 with _ | cc0
            · rw [resolveTimes]
            · rw [resolveTimes]
              rw [if_pos hcid]
          · have hfind := @find?_of_unique_id path ((scanBody rest).2.1) _
              cc.callouts hnd hhead (by rw [if_neg hcid]) rfl
            conv_lhs => rw [resolveTimes]
            rw [if_neg hcid]
            dsimp only
            rw [hfind]
            dsimp only
            have hne := resolveTimes_ne_empty path (toLowerStr tyRaw) title
              (trimStr (joinLines (scanBody rest).1)) (idx + 1 + (scanBody rest).2.2)
              hm h1 c0 (scanBody rest).2.1
            have hcreated : truthyOr (some (resolveTimes path (toLowerStr tyRaw) title
                (trimStr (joinLines (scanBody rest).1)) (idx + 1 + (scanBody rest).2.2)
                mR n1R c0 (scanBody rest).2.1).1) n2R =
                (resolveTimes path (toLowerStr tyRaw) title
                (trimStr (joinLines (scanBody rest).1)) (idx + 1 + (scanBody rest).2.2)
                mR n1R c0 (scanBody rest).2.1).1 := by
              simp [truthyOr, hne.1]
            have hunch : hasCalloutChanged
                { file := path, type := toLowerStr tyRaw, title := title,
                  content := trimStr (joinLines (scanBody rest).1),
                  lineNumber := idx + 1 + (scanBody rest).2.2, fileModTime := some mR }
                { file := path, type := toLowerStr tyRaw, title := title,
                  content := trimStr (joinLines (scanBody rest).1),
                  lineNumber := idx + 1 + (scanBody rest).2.2,
                  fileModTime := some mR,
                  calloutCreatedTime := some (resolveTimes path (toLowerStr tyRaw) title
                    (trimStr (joinLines (scanBody rest).1)) (idx + 1 + (scanBody rest).2.2)
                    mR n1R c0 (scanBody rest).2.1).1,
                  calloutModifyTime := some (resolveTimes path (toLowerStr tyRaw) title
                    (trimStr (joinLines (scanBody rest).1)) (idx + 1 + (scanBody rest).2.2)
                    mR n1R c0 (scanBody rest).2.1).2,
                  calloutID := if (scanBody rest).2.1.isEmpty then none else some (scanBody rest).2.1,
                  outlinks := extractOutlinksFromContent (trimStr (joinLines (scanBody rest).1)),
                  headers := (buildHierarchy ((AH).filter
                    (fun hh => hh.lineNumber ≤ idx + 1 + (scanBody rest).2.2))).map (fun hh => hh.title),
                  headerLevels := (buildHierarchy ((AH).filter
                    (fun hh => hh.lineNumber ≤ idx + 1 + (scanBody rest).2.2))).map (fun hh => hh.level) } = false := by
              simp [hasCalloutChanged]
            rw [hunch]
            simp only [Bool.false_eq_true, if_false]
            have hmodify : truthyOr (some (resolveTimes path (toLowerStr tyRaw) title
                (trimStr (joinLines (scanBody rest).1)) (idx + 1 + (scanBody rest).2.2)
                mR n1R c0 (scanBody rest).2.1).2) n2R =
                (resolveTimes path (toLowerStr tyRaw) title
                (trimStr (joinLines (scanBody rest).1)) (idx + 1 + (scanBody rest).2.2)
                mR n1R c0 (scanBody rest).2.1).2 := by
              simp [truthyOr, hne.2]
            rw [hcreated, hmodify]
        have htail := ih (idx + 1 + (scanBody rest).2.2) (rest.drop (scanBody rest).2.2)
          (by simp only [List.length_drop]; simp at hlen; omega) hmem2
        conv_lhs => rw [extractFrom]
        conv_rhs => rw [extractFrom]
        rw [hcm]
        dsimp only
        rw [hres, htail]

/-- The preliminary item built for the change comparison
(`preliminaryCallout` in the source). -/
def prelimOf (path ty title content : Str) (lineNo : Nat) (mR : Str) : CalloutItem :=
  { file := path, type := ty, title := title, content := content,
    lineNumber := lineNo, fileModTime := some mR }

/-- When the id is non-empty and the cache lookup hits, the time
resolution returns the carried/refreshed pair of the source's
`if (existingCallout)` branch. -/
theorem resolveTimes_found {path ty title content : Str} {lineNo : Nat}
    {mR nR cid : Str} {cc : CalloutCache} {prior : CalloutItem}
    (hcid : cid.isEmpty = false)
    (hfind : cc.callouts.find?
      (fun c => decide (c.calloutID = some cid ∧ c.file = path)) = some prior) :
    resolveTimes path ty title content lineNo mR nR (some cc) cid =
      (truthyOr prior.calloutCreatedTime nR,
       if hasCalloutChanged (prelimOf path ty title content lineNo mR) prior
       then nR else truthyOr prior.calloutModifyTime nR) := by
  unfold resolveTimes prelimOf
  dsimp only
  rw [if_neg (by simp [hcid]), hfind]

/-- Sample document: a callout nested under `# A`, `## B`, `### C`. -/
def eDocNested : List Str :=
  [charsOf "# A", charsOf "## B", charsOf "### C", charsOf "> [!note] T"]

/-- Sample document: a second `## B2` inserted after `## B`, before the
callout. -/
def eDocNested2 : List Str :=
  [charsOf "# A", charsOf "## B", charsOf "## B2", charsOf "### C", charsOf "> [!note] T"]

/-- Sample document: a callout with one body line followed by plain text. -/
def eDocBody : List Str :=
  [charsOf "> [!note] T", charsOf "> body", charsOf "x"]

/-- Sample document: a callout carrying the block id `^idx1`. -/
def eDocId : List Str :=
  [charsOf "> [!note] T", charsOf "> body ^idx1"]

/-- A prior cache entry for `(A.md, idx1)`. -/
def c3prior : CalloutItem :=
  { file := charsOf "A.md", type := charsOf "note", title := charsOf "T",
    content := charsOf "body", lineNumber := 1,
    fileModTime := some (charsOf "F0"),
    calloutCreatedTime := some (charsOf "C0"),
    calloutModifyTime := some (charsOf "M0"),
    calloutID := some (charsOf "idx1") }

def c3cc : CalloutCache :=
  { version := charsOf "1.3", timestamp := 0, vaultPath := charsOf "V",
    callouts := [c3prior], fileModTimes := [] }

def c1SampleTrip : CalloutItem × Nat × Nat :=
  (extractCalloutsExt (charsOf "A.md") eDocNested (charsOf "M") (charsOf "N") none).headD default

def c2SampleTrip : CalloutItem × Nat × Nat :=
  (extractCalloutsExt (charsOf "A.md") eDocBody (charsOf "M") (charsOf "N") none).headD default

def c3SampleItem : CalloutItem :=
  (extractCalloutsFromFile (charsOf "A.md") eDocId (charsOf "M") (charsOf "N") (some c3cc)).headD default

/-- C1: for every document and every parsed callout, `heading_path`
(`headers`/`headerLevels`) equals the left-to-right stack fold
(`buildHierarchy`) over the collected heading stream filtered to headings
at or before the callout's header line; in particular a callout nested
under `# A`, `## B`, `### C` gets exactly `[(A,1),(B,2),(C,3)]`, and a
second `## B2` inserted after `B` and before the callout replaces `B` with
`B2` in the path. -/
theorem c1_heading_path_stack :
    (∀ (path : Str) (lines : List Str) (mR nR : Str) (cache : Option CalloutCache),
      ∀ trip ∈ extractCalloutsExt path lines mR nR cache,
        trip.1.headers = (buildHierarchy ((collectHeaders lines).filter
          (fun hh => hh.lineNumber ≤ trip.2.1))).map (fun hh => hh.title) ∧
        trip.1.headerLevels = (buildHierarchy ((collectHeaders lines).filter
          (fun hh => hh.lineNumber ≤ trip.2.1))).map (fun hh => hh.level)) ∧
    ((extractCalloutsFromFile (charsOf "A.md") eDocNested (charsOf "M") (charsOf "N") none).map
      (fun c => (c.headers, c.headerLevels)) =
      [([charsOf "A", charsOf "B", charsOf "C"], [1, 2, 3])]) ∧
    ((extractCalloutsFromFile (charsOf "A.md") eDocNested2 (charsOf "M") (charsOf "N") none).map
      (fun c => (c.headers, c.headerLevels)) =
      [([charsOf "A", charsOf "B2", charsOf "C"], [1, 2, 3])]) := by
  refine ⟨?_, by decide, by decide⟩
  intro path lines mR nR cache trip htrip
  have hs := extractFrom_spec path mR nR cache lines lines.length 0 lines
    (le_refl _) (List.drop_zero lines).symm trip htrip
  exact ⟨hs.2.1, hs.2.2.1⟩

theorem c1_heading_path_stack_witness :
    c1SampleTrip ∈ extractCalloutsExt (charsOf "A.md") eDocNested (charsOf "M") (charsOf "N") none ∧
    c1SampleTrip.1.headers = (buildHierarchy ((collectHeaders eDocNested).filter
      (fun hh => hh.lineNumber ≤ c1SampleTrip.2.1))).map (fun hh => hh.title) :=
  ⟨by decide,
   (c1_heading_path_stack.1 (charsOf "A.md") eDocNested (charsOf "M") (charsOf "N") none
     c1SampleTrip (by decide)).1⟩

/-- C2 counterexample: in the document `> [!note] T` / `> body` / `x`, the
callout's header line is line 1 but the stored `lineNumber` is 2 (the last
line of the quoted block), so `line_number` is not the 1-based line of the
header line. -/
theorem c2_line_number_counterexample :
    ((extractCalloutsExt (charsOf "A.md") eDocBody (charsOf "M") (charsOf "N") none).map
      (fun t => (t.1.lineNumber, t.2.1)) = [(2, 1)]) ∧ (2 : Nat) ≠ 1 :=
  ⟨by decide, by decide⟩

/-- C2 (amended): the stored `lineNumber` equals the header line number
plus the number of lines consumed into the quoted block (body lines,
interior and trailing blank lines); every consumed line starts with `>` or
is blank, so `lineNumber` is the 1-based number of the last line scanned
as part of the callout block, which equals the header line exactly when no
following line is consumed. -/
theorem c2_line_number_amended :
    ∀ (path : Str) (lines : List Str) (mR nR : Str) (cache : Option CalloutCache),
      ∀ trip ∈ extractCalloutsExt path lines mR nR cache,
        trip.1.lineNumber = trip.2.1 + trip.2.2 ∧
        ∀ l ∈ (lines.drop trip.2.1).take trip.2.2,
          startsGt l = true ∨ (trimStr l).isEmpty = true := by
  intro path lines mR nR cache trip htrip
  have hs := extractFrom_spec path mR nR cache lines lines.length 0 lines
    (le_refl _) (List.drop_zero lines).symm trip htrip
  exact ⟨hs.1, hs.2.2.2⟩

theorem c2_line_number_amended_witness :
    c2SampleTrip ∈ extractCalloutsExt (charsOf "A.md") eDocBody (charsOf "M") (charsOf "N") none ∧
    c2SampleTrip.1.lineNumber = c2SampleTrip.2.1 + c2SampleTrip.2.2 :=
  ⟨by decide,
   (c2_line_number_amended (charsOf "A.md") eDocBody (charsOf "M") (charsOf "N") none
     c2SampleTrip (by decide)).1⟩

/-- C3: (a) for every parsed callout with an id whose `(document_path, id)`
has a prior cache entry, the prior `created_time` is carried forward
unchanged, and `modified_time` is the current time exactly when `type`,
`title` or `body` differs from the prior entry, otherwise the prior
`modified_time` is kept; (b) hence re-parsing an unchanged document
against the cache of its own previous parse yields identical records
(same id, created_time and modified_time), for any later current time. -/
theorem c3_identity_time_resolution :
    (∀ (path : Str) (lines : List Str) (mR nR : Str) (cc : CalloutCache)
       (item : CalloutItem) (cid : Str) (prior : CalloutItem),
      item ∈ extractCalloutsFromFile path lines mR nR (some cc) →
      item.calloutID = some cid →
      cc.callouts.find? (fun c => decide (c.calloutID = some cid ∧ c.file = path)) = some prior →
      (∀ ct, prior.calloutCreatedTime = some ct → ct.isEmpty = false →
        item.calloutCreatedTime = some ct) ∧
      (hasCalloutChanged item prior = true → item.calloutModifyTime = some nR) ∧
      (∀ mt, hasCalloutChanged item prior = false → prior.calloutModifyTime = some mt →
        mt.isEmpty = false → item.calloutModifyTime = some mt)) ∧
    (∀ (path : Str) (lines : List Str) (mR n1R n2R : Str)
       (c0 : Option CalloutCache) (cc : CalloutCache),
      mR.isEmpty = false → n1R.isEmpty = false →
      cc.callouts = extractCalloutsFromFile path lines mR n1R c0 →
      ((extractCalloutsFromFile path lines mR n1R c0).filterMap (fun c => c.calloutID)).Nodup →
      extractCalloutsFromFile path lines mR n2R (some cc) =
        extractCalloutsFromFile path lines mR n1R c0) := by
  constructor
  · intro path lines mR nR cc item cid prior hmem hid hfind
    obtain ⟨trip, htrip, hfst⟩ := List.mem_map.mp hmem
    obtain ⟨hfile, hmt, cid', hcid', hct, hmtm⟩ :=
      extractFrom_fields (collectHeaders lines) path mR nR (some cc) lines.length 0 lines
        (le_refl _) trip htrip
    subst hfst
    by_cases hemp : cid'.isEmpty
    · rw [if_pos hemp] at hcid'
      rw [hcid'] at hid
      exact absurd hid (by simp)
    · rw [if_neg hemp] at hcid'
      rw [hcid'] at hid
      have hcideq : cid' = cid := by simpa using hid
      subst hcideq
      rw [resolveTimes_found (by simpa using hemp) hfind] at hct hmtm
      dsimp only at hct hmtm
      have hch : hasCalloutChanged
          (prelimOf path trip.1.type trip.1.title trip.1.content trip.1.lineNumber mR)
          prior = hasCalloutChanged trip.1 prior := by
        unfold prelimOf
        apply hasCalloutChanged_eq_fields <;> rfl
      rw [hch] at hmtm
      refine ⟨?_, ?_, ?_⟩
      · intro ct hctp hctne
        rw [hct]
        unfold truthyOr
        rw [hctp]
        simp [hctne]
      · intro hchg
        rw [hmtm, hchg]
        simp
      · intro mt hchg hmtp hmtne
        rw [hmtm, hchg]
        unfold truthyOr
        rw [hmtp]
        simp [hmtne]
  · intro path lines mR n1R n2R c0 cc hm h1 hcc hnd
    have hnd2 : (cc.callouts.filterMap (fun c => c.calloutID)).Nodup := by
      rw [hcc]
      unfold extractCalloutsFromFile at hnd ⊢
      exact hnd
    have hmem : ∀ trip ∈ extractFrom (collectHeaders lines) path mR n1R c0 lines.length 0 lines,
        trip.1 ∈ cc.callouts := by
      intro trip htr
      rw [hcc]
      exact List.mem_map_of_mem _ htr
    have h := extract_idem_aux (collectHeaders lines) path mR n1R n2R c0 cc hm h1 hnd2
      lines.length 0 lines (le_refl _) hmem
    unfold extractCalloutsFromFile extractCalloutsExt
    rw [h]

theorem c3_identity_time_resolution_witness :
    c3SampleItem ∈ extractCalloutsFromFile (charsOf "A.md") eDocId (charsOf "M") (charsOf "N") (some c3cc) ∧
    c3SampleItem.calloutCreatedTime = some (charsOf "C0") ∧
    c3SampleItem.calloutModifyTime = some (charsOf "M0") ∧
    extractCalloutsFromFile (charsOf "A.md") eDocId (charsOf "M") (charsOf "N2")
        (some { version := charsOf "1.3", timestamp := 0, vaultPath := charsOf "V",
                callouts := extractCalloutsFromFile (charsOf "A.md") eDocId (charsOf "M") (charsOf "N") (some c3cc),
                fileModTimes := [] }) =
      extractCalloutsFromFile (charsOf "A.md") eDocId (charsOf "M") (charsOf "N") (some c3cc) := by
  have hmem : c3SampleItem ∈ extractCalloutsFromFile (charsOf "A.md") eDocId
      (charsOf "M") (charsOf "N") (some c3cc) := by decide
  have ha := (c3_identity_time_resolution.1 (charsOf "A.md") eDocId (charsOf "M") (charsOf "N")
    c3cc c3SampleItem (charsOf "idx1") c3prior hmem (by decide) (by decide))
  refine ⟨hmem, ha.1 (charsOf "C0") (by decide) (by decide), ?_, ?_⟩
  · exact ha.2.2 (charsOf "M0") (by decide) (by decide) (by decide)
  · exact c3_identity_time_resolution.2 (charsOf "A.md") eDocId (charsOf "M") (charsOf "N")
      (charsOf "N2") (some c3cc) _ (by decide) (by decide) rfl (by decide)

/-- A markdown file of the vault as seen through the Obsidian adapter
(`TFile` with its `stat.mtime`). -/
structure VFile where
  path : Str
  mtime : Int
deriving DecidableEq, Repr

/-- `app.vault.getAbstractFileByPath` restricted to markdown files. -/
def lookupFile (vault : List VFile) (p : Str) : Option VFile :=
  vault.find? (fun f => decide (f.path = p))

/-- `incrementalUpdateQueue.set(file.path, file)`: an existing key keeps its
position, a new key appends (JS `Map` insertion order). -/
def queueAdd (q : List Str) (p : Str) : List Str :=
  if p ∈ q then q else q ++ [p]

/-- The new-file scan at the end of `isCacheValid` (cache.ts lines
199–211): count current markdown files that are neither skipped nor in the
cached mtime map; queue the first three, return invalid on the fourth. -/
def newFileScan (skip : Str → Bool) (keys : List Str) :
    List VFile → List Str → Nat → Bool × List Str
  | [], q, _ => (true, q)
  | f :: fs, q, cnt =>
    if skip f.path || decide (f.path ∈ keys) then newFileScan skip keys fs q cnt
    else if cnt + 1 ≤ 3 then newFileScan skip keys fs (queueAdd q f.path) (cnt + 1)
    else (false, q)

/-- The modified-file collection of `isCacheValid` (cache.ts lines
173–183): cached entries whose file still exists and whose current mtime
exceeds the recorded readable mtime (`rtt` is `readableToTimestamp`). -/
def modifiedFilesOf (rtt : Str → Int) (vault : List VFile) (cache : CalloutCache) : List Str :=
  (cache.fileModTimes.filter (fun pt =>
    match lookupFile vault pt.1 with
    | some f => decide (rtt pt.2 < f.mtime)
    | none => false)).map (fun pt => pt.1)

/-- `CacheManager.isCacheValid` (src/modules/cache.ts lines 161–218) as a
function of the readable→ms converter, the vault, the folder filter, the
incremental queue contents, and the cache.  Returns the boolean result and
the queue contents afterwards.  The source returns `false` from inside the
collection loop as soon as a recorded path no longer resolves to a file;
that early return is modelled by the up-front existence test (the result
and the queue are identical because nothing is queued while collecting). -/
def isCacheValid (rtt : Str → Int) (vault : List VFile) (skip : Str → Bool)
    (q0 : List Str) (cache : CalloutCache) : Bool × List Str :=
  if q0.length > 10 then (false, q0)
  else if cache.fileModTimes.any (fun pt => (lookupFile vault pt.1).isNone) then (false, q0)
  else
    let modified := modifiedFilesOf rtt vault cache
    if 0 < modified.length ∧ modified.length ≤ 5 then (true, modified.foldl queueAdd q0)
    else if 5 < modified.length then (false, q0)
    else newFileScan skip (cache.fileModTimes.map (fun pt => pt.1)) vault q0 0

theorem foldl_queueAdd_of_nodup :
    ∀ (l q : List Str), (∀ x ∈ l, x ∉ q) → l.Nodup →
      l.foldl queueAdd q = q ++ l := by
  intro l
  induction l with
  | nil => intro q _ _; simp
  | cons x t ih =>
    intro q hq hnd
    rw [List.foldl_cons]
    have hx : queueAdd q x = q ++ [x] := by
      unfold queueAdd
      rw [if_neg (hq x (by simp))]
    rw [hx]
    have ht := ih (q ++ [x]) ?_ (List.nodup_cons.mp hnd).2
    · rw [ht, List.append_assoc]
      rfl
    · intro y hy
      simp only [List.mem_append, List.mem_singleton]
      rintro (hyq | rfl)
      · exact hq y (List.mem_cons_of_mem _ hy) hyq
      · exact (List.nodup_cons.mp hnd).1 hy

/-- C4: starting from the constructor state (empty incremental queue), for
a persisted cache whose recorded documents all still exist: with exactly 3
modified documents `isCacheValid` returns true and queues exactly those 3
(in recorded order); with 6 modified documents it returns false (and
queues nothing). -/
theorem c4_cache_validity
    (rtt : Str → Int) (vault : List VFile) (skip : Str → Bool) (cache : CalloutCache)
    (hex : ∀ pt ∈ cache.fileModTimes, (lookupFile vault pt.1).isSome = true)
    (hnd : (cache.fileModTimes.map (fun pt => pt.1)).Nodup) :
    ((modifiedFilesOf rtt vault cache).length = 3 →
      isCacheValid rtt vault skip [] cache = (true, modifiedFilesOf rtt vault cache)) ∧
    ((modifiedFilesOf rtt vault cache).length = 6 →
      isCacheValid rtt vault skip [] cache = (false, [])) := by
  have hany : cache.fileModTimes.any (fun pt => (lookupFile vault pt.1).isNone) = false := by
    rw [List.any_eq_false]
    intro pt hpt
    have h := hex pt hpt
    rcases hv : lookupFile vault pt.1 with _ | f
    · rw [hv] at h; simp at h
    · simp
  have hsub : (modifiedFilesOf rtt vault cache).Sublist (cache.fileModTimes.map (fun pt => pt.1)) := by
    unfold modifiedFilesOf
    exact List.Sublist.map _ (List.filter_sublist _)
  have hndm : (modifiedFilesOf rtt vault cache).Nodup := hsub.nodup hnd
  constructor
  · intro h3
    unfold isCacheValid
    rw [if_neg (by simp), if_neg (by simp [hany])]
    dsimp only
    rw [if_pos (by constructor <;> omega)]
    rw [foldl_queueAdd_of_nodup _ [] (by simp) hndm]
    rfl
  · intro h6
    unfold isCacheValid
    rw [if_neg (by simp), if_neg (by simp [hany])]
    dsimp only
    rw [if_neg (by omega), if_pos (by omega)]

def c4rtt : Str → Int := fun _ => 0

def c4skip : Str → Bool := fun _ => false

def c4vault : List VFile :=
  [⟨charsOf "a.md", 1⟩, ⟨charsOf "b.md", 1⟩, ⟨charsOf "c.md", 1⟩, ⟨charsOf "d.md", -1⟩]

def c4cacheA : CalloutCache :=
  { version := charsOf "1.3", timestamp := 0, vaultPath := charsOf "V", callouts := [],
    fileModTimes := [(charsOf "a.md", charsOf "t"), (charsOf "b.md", charsOf "t"),
                     (charsOf "c.md", charsOf "t"), (charsOf "d.md", charsOf "t")] }

def c4vaultB : List VFile :=
  [⟨charsOf "a.md", 1⟩, ⟨charsOf "b.md", 1⟩, ⟨charsOf "c.md", 1⟩,
   ⟨charsOf "d.md", 1⟩, ⟨charsOf "e.md", 1⟩, ⟨charsOf "f.md", 1⟩]

def c4cacheB : CalloutCache :=
  { version := charsOf "1.3", timestamp := 0, vaultPath := charsOf "V", callouts := [],
    fileModTimes := [(charsOf "a.md", charsOf "t"), (charsOf "b.md", charsOf "t"),
                     (charsOf "c.md", charsOf "t"), (charsOf "d.md", charsOf "t"),
                     (charsOf "e.md", charsOf "t"), (charsOf "f.md", charsOf "t")] }

theorem c4_cache_validity_witness :
    isCacheValid c4rtt c4vault c4skip [] c4cacheA =
      (true, [charsOf "a.md", charsOf "b.md", charsOf "c.md"]) ∧
    isCacheValid c4rtt c4vaultB c4skip [] c4cacheB = (false, []) := by
  constructor
  · have h := (c4_cache_validity c4rtt c4vault c4skip c4cacheA (by decide) (by decide)).1 (by decide)
    rw [h]
    decide
  · exact (c4_cache_validity c4rtt c4vaultB c4skip c4cacheB (by decide) (by decide)).2 (by decide)

/-- A queued file of an incremental batch: its path, current text (lines)
and current modification time. -/
structure QFile where
  path : Str
  lines : List Str
  mtime : Int
deriving DecidableEq, Repr

/-- JS object assignment `m[k] = v`: existing keys keep their position. -/
def setAssoc (m : List (Str × Str)) (k v : Str) : List (Str × Str) :=
  if m.any (fun e => e.1 = k) then m.map (fun e => if e.1 = k then (k, v) else e)
  else m ++ [(k, v)]

def lookupAssoc (m : List (Str × Str)) (k : Str) : Option Str :=
  (m.find? (fun e => decide (e.1 = k))).map (fun e => e.2)

/-- `cache.callouts = cache.callouts.filter(c => c.file !== file.path)`. -/
def removePrior (c : CalloutCache) (p : Str) : CalloutCache :=
  { c with callouts := c.callouts.filter (fun cl => decide (cl.file ≠ p)) }

/-- One iteration of the `for (const file of filesToUpdate)` loop of
`processIncrementalUpdates` (cache.ts lines 253–267): remove the file's
prior records, re-parse passing the (already filtered) in-place-mutated
cache, append the new records, and update the stored mtime. -/
def incStep (ttr : Int → Str) (nowR : Str) (c : CalloutCache) (f : QFile) : CalloutCache :=
  let c1 := removePrior c f.path
  let newcs := extractCalloutsFromFile f.path f.lines (ttr f.mtime) nowR (some c1)
  { c1 with callouts := c1.callouts ++ newcs,
            fileModTimes := setAssoc c1.fileModTimes f.path (ttr f.mtime) }

/-- `saveIncrementalCache` (cache.ts lines 279–301): refresh the snapshot
timestamp and write the cache file once. -/
def saveIncrementalCache (nowT : Int) (c : CalloutCache) : CalloutCache :=
  { c with timestamp := nowT }

/-- `CacheManager.processIncrementalUpdates` (cache.ts lines 234–277) as a
pure function of the loaded cache and the drained queue.  The second
component is the list of cache snapshots persisted during the call: empty
when the queue is empty or no cache could be loaded, and exactly one
snapshot — written after the whole batch — otherwise. -/
def processIncrementalUpdates (ttr : Int → Str) (nowR : Str) (nowT : Int)
    (loaded : Option CalloutCache) (queue : List QFile) :
    Option CalloutCache × List CalloutCache :=
  if queue.isEmpty then (none, [])
  else
    match loaded with
    | none => (none, [])
    | some c =>
      let fin := queue.foldl (incStep ttr nowR) c
      (some fin, [saveIncrementalCache nowT fin])

theorem extractCalloutsFromFile_file (path : Str) (lines : List Str) (mR nR : Str)
    (cch : Option CalloutCache) :
    ∀ item ∈ extractCalloutsFromFile path lines mR nR cch, item.file = path := by
  intro item hitem
  obtain ⟨trip, htrip, hfst⟩ := List.mem_map.mp hitem
  have := (extractFrom_fields (collectHeaders lines) path mR nR cch lines.length 0 lines
    (le_refl _) trip htrip).1
  rw [hfst] at this
  exact this

theorem find?_map_setEntry : ∀ (m : List (Str × Str)) (k v p : Str), p ≠ k →
    (m.map (fun e => if e.1 = k then (k, v) else e)).find? (fun e => decide (e.1 = p)) =
      m.find? (fun e => decide (e.1 = p)) := by
  intro m k v p hp
  induction m with
  | nil => rfl
  | cons e t ih =>
    rw [List.map_cons]
    by_cases he : e.1 = k
    · rw [if_pos he]
      rw [List.find?_cons_of_neg _ (by simp; exact fun h => hp h.symm)]
      rw [List.find?_cons_of_neg _ (by simp; intro hep; rw [hep] at he; exact hp he)]
      exact ih
    · rw [if_neg he]
      by_cases hep : e.1 = p
      · rw [List.find?_cons_of_pos _ (by simpa using hep),
            List.find?_cons_of_pos _ (by simpa using hep)]
      · rw [List.find?_cons_of_neg _ (by simpa using hep),
            List.find?_cons_of_neg _ (by simpa using hep)]
        exact ih

theorem find?_append_one_ne : ∀ (m : List (Str × Str)) (k v p : Str), p ≠ k →
    (m ++ [(k, v)]).find? (fun e => decide (e.1 = p)) =
      m.find? (fun e => decide (e.1 = p)) := by
  intro m k v p hp
  induction m with
  | nil =>
    rw [List.nil_append]
    rw [List.find?_cons_of_neg _ (by simp; exact fun h => hp h.symm)]
  | cons e t ih =>
    rw [List.cons_append]
    by_cases hep : e.1 = p
    · rw [List.find?_cons_of_pos _ (by simpa using hep),
          List.find?_cons_of_pos _ (by simpa using hep)]
    · rw [List.find?_cons_of_neg _ (by simpa using hep),
          List.find?_cons_of_neg _ (by simpa using hep)]
      exact ih

theorem lookupAssoc_setAssoc_ne {m : List (Str × Str)} {k v p : Str} (hp : p ≠ k) :
    lookupAssoc (setAssoc m k v) p = lookupAssoc m p := by
  unfold setAssoc lookupAssoc
  by_cases hany : m.any (fun e => e.1 = k)
  · rw [if_pos hany, find?_map_setEntry m k v p hp]
  · rw [if_neg hany, find?_append_one_ne m k v p hp]

theorem lookupAssoc_setAssoc_self : ∀ (m : List (Str × Str)) (k v : Str),
    lookupAssoc (setAssoc m k v) k = some v := by
  intro m k v
  unfold setAssoc lookupAssoc
  by_cases hany : m.any (fun e => e.1 = k)
  · rw [if_pos hany]
    rw [List.any_eq_true] at hany
    induction m with
    | nil => simp at hany
    | cons e t ih =>
      rw [List.map_cons]
      by_cases he : e.1 = k
      · rw [if_pos he, List.find?_cons_of_pos _ (by simp)]
        rfl
      · rw [if_neg he]
        rw [List.find?_cons_of_neg _ (by simpa using he)]
        apply ih
        rcases hany with ⟨x, hx, hxk⟩
        rcases List.mem_cons.mp hx with rfl | hxt
        · exact absurd (by simpa using hxk) he
        · exact ⟨x, hxt, hxk⟩
  · rw [if_neg hany]
    simp only [Bool.not_eq_true] at hany
    rw [List.any_eq_false] at hany
    induction m with
    | nil => simp [List.find?]
    | cons e t ih =>
      rw [List.cons_append]
      rw [List.find?_cons_of_neg _ (by simpa using hany e (by simp))]
      exact ih (fun x hx => hany x (List.mem_cons_of_mem _ hx))

theorem incStep_frame {ttr : Int → Str} {nowR : Str} {c : CalloutCache} {f : QFile}
    {p : Str} (hne : p ≠ f.path) :
    (incStep ttr nowR c f).callouts.filter (fun cl => decide (cl.file = p)) =
      c.callouts.filter (fun cl => decide (cl.file = p)) ∧
    lookupAssoc (incStep ttr nowR c f).fileModTimes p = lookupAssoc c.fileModTimes p := by
  constructor
  · show ((c.callouts.filter (fun cl => decide (cl.file ≠ f.path))) ++
      extractCalloutsFromFile f.path f.lines (ttr f.mtime) nowR (some (removePrior c f.path))).filter
        (fun cl => decide (cl.file = p)) = _
    rw [List.filter_append]
    have h1 : (extractCalloutsFromFile f.path f.lines (ttr f.mtime) nowR
        (some (removePrior c f.path))).filter (fun cl => decide (cl.file = p)) = [] := by
      rw [List.filter_eq_nil_iff]
      intro cl hcl
      have := extractCalloutsFromFile_file f.path f.lines (ttr f.mtime) nowR
        (some (removePrior c f.path)) cl hcl
      simp only [this]
      simp
      exact fun h => hne h.symm
    rw [h1, List.append_nil, List.filter_filter]
    apply List.filter_congr
    intro cl _
    by_cases hp : cl.file = p
    · simp [hp, hne]
    · simp [hp]
  · exact lookupAssoc_setAssoc_ne hne

/-- The records a step leaves for its own path are exactly the fresh
re-parse (against the filtered cache), and the stored mtime is updated. -/
theorem incStep_own {ttr : Int → Str} {nowR : Str} {c : CalloutCache} {f : QFile} :
    (incStep ttr nowR c f).callouts.filter (fun cl => decide (cl.file = f.path)) =
      extractCalloutsFromFile f.path f.lines (ttr f.mtime) nowR (some (removePrior c f.path)) ∧
    lookupAssoc (incStep ttr nowR c f).fileModTimes f.path = some (ttr f.mtime) := by
  constructor
  · show ((c.callouts.filter (fun cl => decide (cl.file ≠ f.path))) ++
      extractCalloutsFromFile f.path f.lines (ttr f.mtime) nowR (some (removePrior c f.path))).filter
        (fun cl => decide (cl.file = f.path)) = _
    rw [List.filter_append]
    have h1 : (c.callouts.filter (fun cl => decide (cl.file ≠ f.path))).filter
        (fun cl => decide (cl.file = f.path)) = [] := by
      rw [List.filter_filter, List.filter_eq_nil_iff]
      intro cl _
      by_cases hp : cl.file = f.path <;> simp [hp]
    have h2 : (extractCalloutsFromFile f.path f.lines (ttr f.mtime) nowR
        (some (removePrior c f.path))).filter (fun cl => decide (cl.file = f.path)) =
        extractCalloutsFromFile f.path f.lines (ttr f.mtime) nowR (some (removePrior c f.path)) := by
      rw [List.filter_eq_self]
      intro cl hcl
      have := extractCalloutsFromFile_file f.path f.lines (ttr f.mtime) nowR
        (some (removePrior c f.path)) cl hcl
      simp [this]
    rw [h1, h2, List.nil_append]
  · exact lookupAssoc_setAssoc_self _ _ _

theorem foldl_incStep_frame {ttr : Int → Str} {nowR : Str} :
    ∀ (fs : List QFile) (c : CalloutCache) (p : Str), p ∉ fs.map (fun f => f.path) →
      (fs.foldl (incStep ttr nowR) c).callouts.filter (fun cl => decide (cl.file = p)) =
        c.callouts.filter (fun cl => decide (cl.file = p)) ∧
      lookupAssoc (fs.foldl (incStep ttr nowR) c).fileModTimes p = lookupAssoc c.fileModTimes p := by
  intro fs
  induction fs with
  | nil => intro c p _; exact ⟨rfl, rfl⟩
  | cons f t ih =>
    intro c p hp
    rw [List.foldl_cons]
    have hne : p ≠ f.path := by
      intro h
      exact hp (by rw [List.map_cons, h]; exact List.mem_cons_self _ _)
    have hpt : p ∉ t.map (fun f => f.path) := by
      intro h
      exact hp (by rw [List.map_cons]; exact List.mem_cons_of_mem _ h)
    have h1 := ih (incStep ttr nowR c f) p hpt
    have h2 := @incStep_frame ttr nowR c f p hne
    exact ⟨h1.1.trans h2.1, h1.2.trans h2.2⟩

/-- C5: for a non-empty incremental batch with pairwise-distinct paths and
a loadable cache: the call returns the fold of the per-file step over the
batch and persists exactly one snapshot, taken after the whole batch; each
queued document ends with exactly its freshly re-parsed records (parsed
against the cache state of its turn, prior records removed) and its stored
mtime updated; documents not in the batch keep their records and stored
mtime unchanged. -/
theorem c5_incremental_batch (ttr : Int → Str) (nowR : Str) (nowT : Int)
    (c : CalloutCache) (queue : List QFile)
    (hq : queue ≠ []) (hnd : (queue.map (fun f => f.path)).Nodup) :
    processIncrementalUpdates ttr nowR nowT (some c) queue =
      (some (queue.foldl (incStep ttr nowR) c),
       [saveIncrementalCache nowT (queue.foldl (incStep ttr nowR) c)]) ∧
    (∀ p, p ∉ queue.map (fun f => f.path) →
      (queue.foldl (incStep ttr nowR) c).callouts.filter (fun cl => decide (cl.file = p)) =
        c.callouts.filter (fun cl => decide (cl.file = p)) ∧
      lookupAssoc (queue.foldl (incStep ttr nowR) c).fileModTimes p =
        lookupAssoc c.fileModTimes p) ∧
    (∀ pre f post, queue = pre ++ f :: post →
      (queue.foldl (incStep ttr nowR) c).callouts.filter (fun cl => decide (cl.file = f.path)) =
        extractCalloutsFromFile f.path f.lines (ttr f.mtime) nowR
          (some (removePrior (pre.foldl (incStep ttr nowR) c) f.path)) ∧
      lookupAssoc (queue.foldl (incStep ttr nowR) c).fileModTimes f.path =
        some (ttr f.mtime)) := by
  refine ⟨?_, ?_, ?_⟩
  · unfold processIncrementalUpdates
    rw [if_neg (by simpa using hq)]
  · intro p hp
    exact foldl_incStep_frame queue c p hp
  · intro pre f post heq
    subst heq
    rw [List.foldl_append, List.foldl_cons]
    have hnd2 : ((pre.map (fun g => g.path)) ++
        (f.path :: post.map (fun g => g.path))).Nodup := by
      simpa [List.map_append] using hnd
    have hpost : f.path ∉ post.map (fun g => g.path) :=
      (List.nodup_cons.mp (List.nodup_append.mp hnd2).2.1).1
    have hframe := @foldl_incStep_frame ttr nowR post
      (incStep ttr nowR (pre.foldl (incStep ttr nowR) c) f) f.path hpost
    have hown := @incStep_own ttr nowR (pre.foldl (incStep ttr nowR) c) f
    exact ⟨hframe.1.trans hown.1, hframe.2.trans hown.2⟩

def c5ttr : Int → Str := fun _ => charsOf "TT"

def c5cache : CalloutCache :=
  { version := charsOf "1.3", timestamp := 0, vaultPath := charsOf "V",
    callouts :=
      [{ file := charsOf "a.md", type := charsOf "note", title := charsOf "X",
         content := charsOf "c", lineNumber := 1 },
       { file := charsOf "b.md", type := charsOf "info", title := charsOf "Y",
         content := charsOf "d", lineNumber := 1 }],
    fileModTimes := [(charsOf "a.md", charsOf "t0"), (charsOf "b.md", charsOf "t0")] }

def c5queue : List QFile :=
  [{ path := charsOf "a.md", lines := [charsOf "> [!note] Z"], mtime := 5 }]

theorem c5_incremental_batch_witness :
    processIncrementalUpdates c5ttr (charsOf "N") 7 (some c5cache) c5queue =
      (some (c5queue.foldl (incStep c5ttr (charsOf "N")) c5cache),
       [saveIncrementalCache 7 (c5queue.foldl (incStep c5ttr (charsOf "N")) c5cache)]) ∧
    (c5queue.foldl (incStep c5ttr (charsOf "N")) c5cache).callouts.filter
        (fun cl => decide (cl.file = charsOf "b.md")) =
      c5cache.callouts.filter (fun cl => decide (cl.file = charsOf "b.md")) := by
  have h := c5_incremental_batch c5ttr (charsOf "N") 7 c5cache c5queue (by decide) (by decide)
  exact ⟨h.1, (h.2.1 (charsOf "b.md") (by decide)).1⟩

/-- A serialized timestamp value in the persisted cache file: old caches
stored milliseconds as numbers, new ones store readable strings. -/
inductive TimeVal where
  | num (t : Int)
  | str (s : Str)
deriving DecidableEq, Repr

/-- A callout record as read from the persisted cache file; the loader's
timestamp-upgrade pass touches exactly these three fields (cache.ts lines
68–81), every other field is carried through untouched, so they are
omitted from this model of the load path. -/
structure RawCallout where
  fileModTime : Option TimeVal := none
  calloutCreatedTime : Option TimeVal := none
  calloutModifyTime : Option TimeVal := none
deriving DecidableEq, Repr

/-- The persisted cache record as parsed from the file: every field may be
absent in arbitrary JSON. -/
structure RawCache where
  version : Option Str := none
  vaultPath : Option Str := none
  callouts : List RawCallout := []
  fileModTimes : Option (List (Str × TimeVal)) := none
deriving DecidableEq, Repr

/-- The state of the persisted cache file as seen by `loadCalloutCache`:
missing, `JSON.parse` throws, parses but fails the structure validation
(`!cache || typeof cache !== 'object' || !Array.isArray(cache.callouts)`),
or parses into a record. -/
inductive CacheFileState where
  | missing
  | malformed
  | badStructure
  | wellFormed (raw : RawCache)
deriving DecidableEq, Repr

def cacheVersionStr : Str := charsOf "1.3"

/-- The per-field upgrade of callout timestamps (cache.ts 68–81):
`if (callout.f && typeof callout.f === 'number') convert` — note the JS
truthiness guard skips the numeric value `0`. -/
def upgradeCalloutTime (ttr : Int → Str) (o : Option TimeVal) : Option TimeVal :=
  match o with
  | some (TimeVal.num t) => if t = 0 then some (TimeVal.num t) else some (TimeVal.str (ttr t))
  | x => x

def upgradeCallout (ttr : Int → Str) (c : RawCallout) : RawCallout :=
  { fileModTime := upgradeCalloutTime ttr c.fileModTime,
    calloutCreatedTime := upgradeCalloutTime ttr c.calloutCreatedTime,
    calloutModifyTime := upgradeCalloutTime ttr c.calloutModifyTime }

/-- The fileModTimes upgrade (cache.ts 54–66): `typeof time === 'number'`
converts every numeric value, `0` included. -/
def upgradeFmtEntry (ttr : Int → Str) : Str × TimeVal → Str × TimeVal
  | (p, TimeVal.num t) => (p, TimeVal.str (ttr t))
  | (p, TimeVal.str s) => (p, TimeVal.str s)

/-- The whole upgrade pass of the loader: convert the mtime map when
present (`if (cache.fileModTimes)`), and convert each callout's time
fields (`if (cache.callouts)` — the structure validation already
guaranteed an array). -/
def upgradeRaw (ttr : Int → Str) (raw : RawCache) : RawCache :=
  { raw with
    fileModTimes := raw.fileModTimes.map (fun m => m.map (upgradeFmtEntry ttr)),
    callouts := raw.callouts.map (upgradeCallout ttr) }

/-- `CacheManager.loadCalloutCache` (src/modules/cache.ts lines 21–98) as
a total function of the file state: missing, unparsable and
structure-invalid files load as `none` (never an exception — the whole
body is wrapped in `try`/`catch` returning null), numeric timestamps are
upgraded, and a version or vault mismatch loads as `none`. -/
def loadCalloutCache (ttr : Int → Str) (currentVault : Str)
    (st : CacheFileState) : Option RawCache :=
  match st with
  | CacheFileState.missing => none
  | CacheFileState.malformed => none
  | CacheFileState.badStructure => none
  | CacheFileState.wellFormed raw =>
    let raw2 := upgradeRaw ttr raw
    if raw2.version = some cacheVersionStr then
      if raw2.vaultPath = some currentVault then some raw2 else none
    else none

def c6raw : RawCache :=
  { version := some (charsOf "1.3"), vaultPath := some (charsOf "V"),
    callouts := [{ calloutCreatedTime := some (TimeVal.num 0) }],
    fileModTimes := some [] }

/-- C6 counterexample: an otherwise valid persisted cache containing the
old numeric timestamp `0` in a callout record loads successfully but the
value is left numeric (`num 0`), not upgraded to the string format — the
JS truthiness guard `callout.calloutCreatedTime && typeof ... === 'number'`
skips `0`. -/
theorem c6_numeric_zero_counterexample :
    (loadCalloutCache (fun _ => charsOf "T") (charsOf "V")
        (CacheFileState.wellFormed c6raw)).map
      (fun c => c.callouts.map (fun cl => cl.calloutCreatedTime)) =
      some [some (TimeVal.num 0)] := by decide

/-- C6 (amended): loading never throws past the load (the model is a total
function); a missing, unparsable or structure-invalid file, a schema
version different from `1.3`, and a vault identity different from the
current vault all load as `none`; on success the version and vault match,
every value of the document-mtime map is in string form, and every callout
time field is either absent, already a string, a converted string, or the
untouched numeric `0` (the one value the JS truthiness guard skips). -/
theorem c6_load_fallback_amended (ttr : Int → Str) (v : Str) :
    (loadCalloutCache ttr v CacheFileState.missing = none ∧
     loadCalloutCache ttr v CacheFileState.malformed = none ∧
     loadCalloutCache ttr v CacheFileState.badStructure = none) ∧
    (∀ raw, raw.version ≠ some cacheVersionStr →
      loadCalloutCache ttr v (CacheFileState.wellFormed raw) = none) ∧
    (∀ raw, raw.vaultPath ≠ some v →
      loadCalloutCache ttr v (CacheFileState.wellFormed raw) = none) ∧
    (∀ raw c, loadCalloutCache ttr v (CacheFileState.wellFormed raw) = some c →
      c.version = some cacheVersionStr ∧ c.vaultPath = some v ∧
      (∀ m, c.fileModTimes = some m → ∀ e ∈ m, ∃ s, e.2 = TimeVal.str s) ∧
      (∀ cl ∈ c.callouts, ∀ o ∈ [cl.fileModTime, cl.calloutCreatedTime, cl.calloutModifyTime],
        o = none ∨ o = some (TimeVal.num 0) ∨ ∃ s, o = some (TimeVal.str s))) := by
  have hfield : ∀ x : Option TimeVal, upgradeCalloutTime ttr x = none ∨
      upgradeCalloutTime ttr x = some (TimeVal.num 0) ∨
      ∃ s, upgradeCalloutTime ttr x = some (TimeVal.str s) := by
    intro x
    rcases x with _ | tv
    · exact Or.inl rfl
    · rcases tv with t | s
      · by_cases ht : t = 0
        · subst ht
          exact Or.inr (Or.inl (by simp [upgradeCalloutTime]))
        · exact Or.inr (Or.inr ⟨ttr t, by simp [upgradeCalloutTime, ht]⟩)
      · exact Or.inr (Or.inr ⟨s, rfl⟩)
  have hcallouts : ∀ (cls : List RawCallout) (cl : RawCallout),
      cl ∈ cls.map (upgradeCallout ttr) →
      ∀ o ∈ [cl.fileModTime, cl.calloutCreatedTime, cl.calloutModifyTime],
        o = none ∨ o = some (TimeVal.num 0) ∨ ∃ s, o = some (TimeVal.str s) := by
    intro cls cl hcl o ho
    obtain ⟨cl0, _, hmap⟩ := List.mem_map.mp hcl
    subst hmap
    simp only [List.mem_cons, List.not_mem_nil, or_false] at ho
    rcases ho with rfl | rfl | rfl
    · exact hfield cl0.fileModTime
    · exact hfield cl0.calloutCreatedTime
    · exact hfield cl0.calloutModifyTime
  have hentries : ∀ (m0 : List (Str × TimeVal)) (e : Str × TimeVal),
      e ∈ m0.map (upgradeFmtEntry ttr) → ∃ s, e.2 = TimeVal.str s := by
    intro m0 e he
    obtain ⟨e0, _, hmap⟩ := List.mem_map.mp he
    rcases e0 with ⟨p, tv⟩
    rcases tv with t | s
    · exact ⟨ttr t, by rw [← hmap]; rfl⟩
    · exact ⟨s, by rw [← hmap]; rfl⟩
  refine ⟨⟨rfl, rfl, rfl⟩, ?_, ?_, ?_⟩
  · intro raw hv
    unfold loadCalloutCache
    dsimp only
    rw [if_neg (show ¬ (upgradeRaw ttr raw).version = some cacheVersionStr from hv)]
  · intro raw hp
    unfold loadCalloutCache
    dsimp only
    by_cases hver : (upgradeRaw ttr raw).version = some cacheVersionStr
    · rw [if_pos hver, if_neg (show ¬ (upgradeRaw ttr raw).vaultPath = some v from hp)]
    · rw [if_neg hver]
  · intro raw c hc
    unfold loadCalloutCache at hc
    dsimp only at hc
    split at hc
    · split at hc
      · rename_i hver hvp
        simp only [Option.some.injEq] at hc
        subst hc
        refine ⟨hver, hvp, ?_, ?_⟩
        · intro m hm e he
          have hfmt : (upgradeRaw ttr raw).fileModTimes =
              raw.fileModTimes.map (fun m1 => m1.map (upgradeFmtEntry ttr)) := rfl
          rw [hfmt] at hm
          rcases hfm : raw.fileModTimes with _ | m0 <;> rw [hfm] at hm
          · exact absurd hm (by simp)
          · have hm2 : m = m0.map (upgradeFmtEntry ttr) := by
              have := hm
              simp at this
              exact this.symm
            subst hm2
            exact hentries m0 e he
        · intro cl hcl
          exact hcallouts raw.callouts cl hcl
      · exact absurd hc (by simp)
    · exact absurd hc (by simp)

def c6ttr : Int → Str := fun _ => charsOf "T"

def c6badVer : RawCache :=
  { version := some (charsOf "9.9"), vaultPath := some (charsOf "V") }

def c6badVault : RawCache :=
  { version := some (charsOf "1.3"), vaultPath := some (charsOf "W") }

def c6good : RawCache :=
  { version := some (charsOf "1.3"), vaultPath := some (charsOf "V"),
    callouts := [{ fileModTime := some (TimeVal.num 5) }],
    fileModTimes := some [(charsOf "a.md", TimeVal.num 3)] }

theorem c6_load_fallback_amended_witness :
    loadCalloutCache c6ttr (charsOf "V") (CacheFileState.wellFormed c6badVer) = none ∧
    loadCalloutCache c6ttr (charsOf "V") (CacheFileState.wellFormed c6badVault) = none ∧
    (upgradeRaw c6ttr c6good).version = some cacheVersionStr := by
  have h := c6_load_fallback_amended c6ttr (charsOf "V")
  refine ⟨h.2.1 c6badVer (by decide), h.2.2.1 c6badVault (by decide), ?_⟩
  exact (h.2.2.2 c6good (upgradeRaw c6ttr c6good) (by decide)).1

/-! ## Graph builder (`CanvasHandler.createCalloutGraphCanvas`, part_006 lines 189-335)

The canvas builder classifies every callout related to the focal (selected)
callout into three lists — `directInlinks`, `directOutlinks`,
`bidirectionalLinks` — and then lays them out in a `Map` keyed by
`` `${callout.file}:${callout.calloutID}` ``. -/

/-- JS template interpolation of a possibly-`undefined` id:
`` `${callout.calloutID}` `` prints the literal string `"undefined"` when the
property is absent. -/
def jsIdStr : Option Str → Str
  | some s => s
  | none => charsOf "undefined"

/-- `getCalloutKey = (callout) => ` `` `${callout.file}:${callout.calloutID}` ``. -/
def getCalloutKey (c : CalloutItem) : Str :=
  c.file ++ ':' :: jsIdStr c.calloutID

/-- Key of a link target: `` `${filename}:${calloutID}` `` (both components are
plain strings here). -/
def targetKey (f cid : Str) : Str := f ++ ':' :: cid

/-- JS `Map.prototype.set`: overwrite in place if the key exists (keeping its
position in insertion order), else append. -/
def mapSet (m : List (Str × CalloutItem)) (k : Str) (v : CalloutItem) :
    List (Str × CalloutItem) :=
  if m.any (fun e => e.1 = k) then
    m.map (fun e => if e.1 = k then (k, v) else e)
  else m ++ [(k, v)]

/-- JS `Map.prototype.get`. -/
def mapGet (m : List (Str × CalloutItem)) (k : Str) : Option CalloutItem :=
  (m.find? (fun e => e.1 = k)).map Prod.snd

/-- One step of the `calloutMap` construction: only callouts with a truthy
`calloutID` are inserted (`if (callout.calloutID) { calloutMap.set(key, callout) }`). -/
def buildStep (m : List (Str × CalloutItem)) (c : CalloutItem) :
    List (Str × CalloutItem) :=
  if optTruthy c.calloutID then mapSet m (getCalloutKey c) c else m

/-- The `calloutMap` built by `allCallouts.forEach(...)`. -/
def buildCalloutMap (all : List CalloutItem) : List (Str × CalloutItem) :=
  all.foldl buildStep []

/-- `targetCallout.outlinks?.some(([f, cId]) => f === selectedCallout.file &&
cId === selectedCallout.calloutID)`: the string `cId` strictly equals the
focal id only when the latter is defined and equal. -/
def linksBack (t focal : CalloutItem) : Bool :=
  t.outlinks.any (fun o => o.1 = focal.file ∧ some o.2.1 = focal.calloutID)

/-- One step of the focal callout's outlink pass: skip self-connections, look
the target up in the map, and append it to `bidirectionalLinks` when it links
back, else to `directOutlinks`.  The accumulator is
`(directOutlinks, bidirectionalLinks)`. -/
def outStep (focal : CalloutItem) (cmap : List (Str × CalloutItem))
    (ob : List CalloutItem × List CalloutItem) (o : Str × Str × Option Str) :
    List CalloutItem × List CalloutItem :=
  if o.1 = focal.file ∧ some o.2.1 = focal.calloutID then ob
  else
    match mapGet cmap (targetKey o.1 o.2.1) with
    | none => ob
    | some t => if linksBack t focal then (ob.1, ob.2 ++ [t]) else (ob.1 ++ [t], ob.2)

/-- `selectedCallout.outlinks.forEach(...)` producing
`(directOutlinks, bidirectionalLinks)`; an absent `outlinks` property is the
empty list. -/
def processOutlinks (focal : CalloutItem) (cmap : List (Str × CalloutItem)) :
    List CalloutItem × List CalloutItem :=
  focal.outlinks.foldl (outStep focal cmap) ([], [])

/-- One step of the inbound scan over all callouts: requires a truthy id and a
link back to the focal callout, skips the focal callout itself (by key) and
anything already classified as bidirectional. -/
def inStep (focal : CalloutItem) (bid : List CalloutItem)
    (inl : List CalloutItem) (c : CalloutItem) : List CalloutItem :=
  if optTruthy c.calloutID && linksBack c focal then
    if getCalloutKey c = getCalloutKey focal then inl
    else if bid.any (fun b => getCalloutKey b = getCalloutKey c) then inl
    else inl ++ [c]
  else inl

/-- `allCallouts.forEach(...)` producing `directInlinks`, given the
already-computed `bidirectionalLinks`. -/
def processInlinks (focal : CalloutItem) (all : List CalloutItem)
    (bid : List CalloutItem) : List CalloutItem :=
  all.foldl (inStep focal bid) []

/-- The three relation lists computed by the canvas builder. -/
structure GraphSets where
  inl : List CalloutItem
  outl : List CalloutItem
  bidir : List CalloutItem
deriving DecidableEq, Repr

/-- Lines 189-277 of the builder: classify every related callout. -/
def classifyRelations (focal : CalloutItem) (all : List CalloutItem) : GraphSets :=
  { inl := processInlinks focal all (processOutlinks focal (buildCalloutMap all)).2,
    outl := (processOutlinks focal (buildCalloutMap all)).1,
    bidir := (processOutlinks focal (buildCalloutMap all)).2 }

/-- One step of the `layoutData` map construction (the layout coordinates are
irrelevant to the claims; we keep the key/callout binding). -/
def layStep (m : List (Str × CalloutItem)) (c : CalloutItem) :
    List (Str × CalloutItem) :=
  mapSet m (getCalloutKey c) c

/-- The `layoutData` map: inlinks, then outlinks, then bidirectional links,
each inserted under its callout key. -/
def layoutData (g : GraphSets) : List (Str × CalloutItem) :=
  (g.inl ++ g.outl ++ g.bidir).foldl layStep []

theorem mapSet_mem {m : List (Str × CalloutItem)} {k : Str} {v : CalloutItem}
    {e : Str × CalloutItem} (h : e ∈ mapSet m k v) : e ∈ m ∨ e = (k, v) := by
  unfold mapSet at h
  split at h
  · rcases List.mem_map.mp h with ⟨e0, he0, heq⟩
    by_cases hk : e0.1 = k
    · right; rw [if_pos hk] at heq; exact heq.symm
    · left; rw [if_neg hk] at heq; exact heq ▸ he0
  · rcases List.mem_append.mp h with h1 | h1
    · exact Or.inl h1
    · right; simpa using h1

theorem mapGet_mem {m : List (Str × CalloutItem)} {k : Str} {v : CalloutItem}
    (h : mapGet m k = some v) : (k, v) ∈ m := by
  unfold mapGet at h
  rcases hf : m.find? (fun e => e.1 = k) with _ | e
  · rw [hf] at h; simp at h
  · rw [hf] at h
    simp only [Option.map_some'] at h
    have he : e ∈ m := List.mem_of_find?_eq_some hf
    have hp := List.find?_some hf
    simp only [decide_eq_true_eq] at hp
    have hev : e = (k, v) := by
      rcases e with ⟨e1, e2⟩
      simp only at hp h
      injection h with h2
      rw [hp, h2]
    exact hev ▸ he

theorem buildFold_mem : ∀ (l : List CalloutItem) (m0 : List (Str × CalloutItem))
    (e : Str × CalloutItem), e ∈ l.foldl buildStep m0 →
    (e.1 = getCalloutKey e.2 ∧ optTruthy e.2.calloutID = true ∧ e.2 ∈ l) ∨ e ∈ m0 := by
  intro l
  induction l with
  | nil => intro m0 e h; exact Or.inr h
  | cons c t ih =>
    intro m0 e h
    rw [List.foldl_cons] at h
    rcases ih (buildStep m0 c) e h with hg | hm
    · exact Or.inl ⟨hg.1, hg.2.1, List.mem_cons_of_mem _ hg.2.2⟩
    · unfold buildStep at hm
      by_cases hc : optTruthy c.calloutID = true
      · rw [if_pos hc] at hm
        rcases mapSet_mem hm with h1 | h1
        · exact Or.inr h1
        · subst h1
          exact Or.inl ⟨rfl, hc, List.mem_cons_self _ _⟩
      · rw [if_neg hc] at hm
        exact Or.inr hm

theorem buildMap_mem {all : List CalloutItem} {e : Str × CalloutItem}
    (h : e ∈ buildCalloutMap all) :
    e.1 = getCalloutKey e.2 ∧ optTruthy e.2.calloutID = true ∧ e.2 ∈ all := by
  rcases buildFold_mem all [] e h with hg | hm
  · exact hg
  · exact absurd hm (List.not_mem_nil e)

theorem sameKey_eq {all : List CalloutItem}
    (hnd : ((all.filter (fun c => optTruthy c.calloutID)).map getCalloutKey).Nodup)
    {a b : CalloutItem} (ha : a ∈ all) (hb : b ∈ all)
    (hta : optTruthy a.calloutID = true) (htb : optTruthy b.calloutID = true)
    (hk : getCalloutKey a = getCalloutKey b) : a = b := by
  have ha2 : a ∈ all.filter (fun c => optTruthy c.calloutID) :=
    List.mem_filter.mpr ⟨ha, hta⟩
  have hb2 : b ∈ all.filter (fun c => optTruthy c.calloutID) :=
    List.mem_filter.mpr ⟨hb, htb⟩
  exact List.inj_on_of_nodup_map hnd ha2 hb2 hk

theorem outFold_mem (focal : CalloutItem) (cmap : List (Str × CalloutItem)) :
    ∀ (l : List (Str × Str × Option Str)) (acc : List CalloutItem × List CalloutItem),
    (∀ x ∈ (l.foldl (outStep focal cmap) acc).1,
       x ∈ acc.1 ∨ ∃ o ∈ l, ¬(o.1 = focal.file ∧ some o.2.1 = focal.calloutID) ∧
         mapGet cmap (targetKey o.1 o.2.1) = some x ∧ linksBack x focal = false) ∧
    (∀ x ∈ (l.foldl (outStep focal cmap) acc).2,
       x ∈ acc.2 ∨ ∃ o ∈ l, ¬(o.1 = focal.file ∧ some o.2.1 = focal.calloutID) ∧
         mapGet cmap (targetKey o.1 o.2.1) = some x ∧ linksBack x focal = true) := by
  intro l
  induction l with
  | nil => intro acc; exact ⟨fun x hx => Or.inl hx, fun x hx => Or.inl hx⟩
  | cons o t ih =>
    intro acc
    rw [List.foldl_cons]
    have hstep1 : ∀ x ∈ (outStep focal cmap acc o).1,
        x ∈ acc.1 ∨ (¬(o.1 = focal.file ∧ some o.2.1 = focal.calloutID) ∧
          mapGet cmap (targetKey o.1 o.2.1) = some x ∧ linksBack x focal = false) := by
      intro x hx
      unfold outStep at hx
      by_cases hself : o.1 = focal.file ∧ some o.2.1 = focal.calloutID
      · rw [if_pos hself] at hx; exact Or.inl hx
      · rw [if_neg hself] at hx
        rcases hg : mapGet cmap (targetKey o.1 o.2.1) with _ | tt
        · rw [hg] at hx; exact Or.inl hx
        · rw [hg] at hx
          dsimp only at hx
          by_cases hlb : linksBack tt focal = true
          · rw [if_pos hlb] at hx; exact Or.inl hx
          · rw [if_neg hlb] at hx
            rcases List.mem_append.mp hx with h1 | h1
            · exact Or.inl h1
            · have hxt : x = tt := by simpa using h1
              subst hxt
              refine Or.inr ⟨hself, rfl, ?_⟩
              simpa using hlb
    have hstep2 : ∀ x ∈ (outStep focal cmap acc o).2,
        x ∈ acc.2 ∨ (¬(o.1 = focal.file ∧ some o.2.1 = focal.calloutID) ∧
          mapGet cmap (targetKey o.1 o.2.1) = some x ∧ linksBack x focal = true) := by
      intro x hx
      unfold outStep at hx
      by_cases hself : o.1 = focal.file ∧ some o.2.1 = focal.calloutID
      · rw [if_pos hself] at hx; exact Or.inl hx
      · rw [if_neg hself] at hx
        rcases hg : mapGet cmap (targetKey o.1 o.2.1) with _ | tt
        · rw [hg] at hx; exact Or.inl hx
        · rw [hg] at hx
          dsimp only at hx
          by_cases hlb : linksBack tt focal = true
          · rw [if_pos hlb] at hx
            rcases List.mem_append.mp hx with h1 | h1
            · exact Or.inl h1
            · have hxt : x = tt := by simpa using h1
              subst hxt
              exact Or.inr ⟨hself, rfl, hlb⟩
          · rw [if_neg hlb] at hx; exact Or.inl hx
    constructor
    · intro x hx
      rcases (ih (outStep focal cmap acc o)).1 x hx with hin | ⟨o2, ho2, hrest⟩
      · rcases hstep1 x hin with h1 | h1
        · exact Or.inl h1
        · exact Or.inr ⟨o, List.mem_cons_self _ _, h1⟩
      · exact Or.inr ⟨o2, List.mem_cons_of_mem _ ho2, hrest⟩
    · intro x hx
      rcases (ih (outStep focal cmap acc o)).2 x hx with hin | ⟨o2, ho2, hrest⟩
      · rcases hstep2 x hin with h1 | h1
        · exact Or.inl h1
        · exact Or.inr ⟨o, List.mem_cons_self _ _, h1⟩
      · exact Or.inr ⟨o2, List.mem_cons_of_mem _ ho2, hrest⟩

theorem outFold_mono (focal : CalloutItem) (cmap : List (Str × CalloutItem)) :
    ∀ (l : List (Str × Str × Option Str)) (acc : List CalloutItem × List CalloutItem)
    (x : CalloutItem), x ∈ acc.2 → x ∈ (l.foldl (outStep focal cmap) acc).2 := by
  intro l
  induction l with
  | nil => intro acc x hx; exact hx
  | cons o t ih =>
    intro acc x hx
    rw [List.foldl_cons]
    apply ih
    unfold outStep
    by_cases hself : o.1 = focal.file ∧ some o.2.1 = focal.calloutID
    · rw [if_pos hself]; exact hx
    · rw [if_neg hself]
      rcases hg : mapGet cmap (targetKey o.1 o.2.1) with _ | tt
      · exact hx
      · dsimp only
        by_cases hlb : linksBack tt focal = true
        · rw [if_pos hlb]
          exact List.mem_append_left _ hx
        · rw [if_neg hlb]; exact hx

theorem outFold_bid_complete (focal : CalloutItem) (cmap : List (Str × CalloutItem))
    (t : CalloutItem) (ht : linksBack t focal = true) :
    ∀ (l : List (Str × Str × Option Str)) (acc : List CalloutItem × List CalloutItem)
    (o : Str × Str × Option Str), o ∈ l →
    ¬(o.1 = focal.file ∧ some o.2.1 = focal.calloutID) →
    mapGet cmap (targetKey o.1 o.2.1) = some t →
    t ∈ (l.foldl (outStep focal cmap) acc).2 := by
  intro l
  induction l with
  | nil => intro acc o ho; exact absurd ho (List.not_mem_nil _)
  | cons o1 tl ih =>
    intro acc o ho hself hget
    rw [List.foldl_cons]
    rcases List.mem_cons.mp ho with heq | htl
    · subst heq
      apply outFold_mono
      unfold outStep
      rw [if_neg hself, hget]
      dsimp only
      rw [if_pos ht]
      exact List.mem_append_right _ (by simp)
    · exact ih _ o htl hself hget

theorem inFold_mem (focal : CalloutItem) (bid : List CalloutItem) :
    ∀ (l : List CalloutItem) (acc : List CalloutItem) (x : CalloutItem),
    x ∈ l.foldl (inStep focal bid) acc →
    x ∈ acc ∨ (x ∈ l ∧ optTruthy x.calloutID = true ∧ linksBack x focal = true ∧
      getCalloutKey x ≠ getCalloutKey focal ∧
      ∀ b ∈ bid, getCalloutKey b ≠ getCalloutKey x) := by
  intro l
  induction l with
  | nil => intro acc x hx; exact Or.inl hx
  | cons c t ih =>
    intro acc x hx
    rw [List.foldl_cons] at hx
    rcases ih _ x hx with hin | ⟨hxt, hrest⟩
    · unfold inStep at hin
      by_cases h1 : (optTruthy c.calloutID && linksBack c focal) = true
      · rw [if_pos h1] at hin
        by_cases h2 : getCalloutKey c = getCalloutKey focal
        · rw [if_pos h2] at hin; exact Or.inl hin
        · rw [if_neg h2] at hin
          by_cases h3 : bid.any (fun b => getCalloutKey b = getCalloutKey c) = true
          · rw [if_pos h3] at hin; exact Or.inl hin
          · rw [if_neg h3] at hin
            rcases List.mem_append.mp hin with h4 | h4
            · exact Or.inl h4
            · have hxc : x = c := by simpa using h4
              subst hxc
              have hand : optTruthy x.calloutID = true ∧ linksBack x focal = true := by
                simpa only [Bool.and_eq_true] using h1
              have h3b : ∀ b ∈ bid, getCalloutKey b ≠ getCalloutKey x := by
                intro b hb
                simp only [List.any_eq_true, decide_eq_true_eq, not_exists] at h3
                push_neg at h3
                exact h3 b hb
              exact Or.inr ⟨List.mem_cons_self _ _, hand.1, hand.2, h2, h3b⟩
      · rw [if_neg h1] at hin; exact Or.inl hin
    · exact Or.inr ⟨List.mem_cons_of_mem _ hxt, hrest⟩

theorem layFold_mem : ∀ (l : List CalloutItem) (m0 : List (Str × CalloutItem))
    (e : Str × CalloutItem), e ∈ l.foldl layStep m0 → e ∈ m0 ∨ e.2 ∈ l := by
  intro l
  induction l with
  | nil => intro m0 e h; exact Or.inl h
  | cons c t ih =>
    intro m0 e h
    rw [List.foldl_cons] at h
    rcases ih _ e h with hin | hm
    · unfold layStep at hin
      rcases mapSet_mem hin with h1 | h1
      · exact Or.inl h1
      · right
        rw [h1]
        exact List.mem_cons_self _ _
    · exact Or.inr (List.mem_cons_of_mem _ hm)

theorem colon_split_first : ∀ (p q r s : Str), ':' ∉ p → ':' ∉ q →
    p ++ ':' :: r = q ++ ':' :: s → p = q ∧ r = s := by
  intro p
  induction p with
  | nil =>
    intro q r s _ hq h
    cases q with
    | nil =>
      simp only [List.nil_append] at h
      injection h with h1 h2
      exact ⟨rfl, h2⟩
    | cons y q2 =>
      simp only [List.nil_append, List.cons_append] at h
      injection h with h1 h2
      exact absurd (List.mem_cons.mpr (Or.inl h1)) hq
  | cons x p2 ih =>
    intro q r s hp hq h
    cases q with
    | nil =>
      simp only [List.cons_append, List.nil_append] at h
      injection h with h1 h2
      exact absurd (List.mem_cons.mpr (Or.inl h1.symm)) hp
    | cons y q2 =>
      simp only [List.cons_append] at h
      injection h with h1 h2
      have hres := ih q2 r s (fun hm => hp (List.mem_cons_of_mem _ hm))
        (fun hm => hq (List.mem_cons_of_mem _ hm)) h2
      exact ⟨by rw [h1, hres.1], hres.2⟩

theorem colon_split_last {p q r s : Str} (hr : ':' ∉ r) (hs : ':' ∉ s)
    (h : p ++ ':' :: r = q ++ ':' :: s) : p = q ∧ r = s := by
  have h2 : r.reverse ++ ':' :: p.reverse = s.reverse ++ ':' :: q.reverse := by
    have hrev := congrArg List.reverse h
    simp only [List.reverse_append, List.reverse_cons, List.append_assoc,
      List.singleton_append] at hrev
    exact hrev
  have hr2 : ':' ∉ r.reverse := by simpa using hr
  have hs2 : ':' ∉ s.reverse := by simpa using hs
  have h3 := colon_split_first _ _ _ _ hr2 hs2 h2
  constructor
  · have h4 := congrArg List.reverse h3.2
    simpa using h4
  · have h4 := congrArg List.reverse h3.1
    simpa using h4

/-- C7: the graph builder classifies each related callout into exactly one of
inbound / outbound / bidirectional.  For a focal callout with a defined id,
under the spec's key-uniqueness invariant (distinct `file:id` keys among
identified callouts) and colon-free ids: the three lists are pairwise disjoint
by key; an outbound target that links back to the focal callout lands in the
bidirectional list (and by disjointness nowhere else); the focal callout's own
key never appears in any of the three lists; and appending a self-outlink to
the focal callout changes nothing (self-references are discarded). -/
theorem c7_graph_classification (focal : CalloutItem) (all : List CalloutItem) (fid : Str)
    (hfid : focal.calloutID = some fid)
    (hnd : ((all.filter (fun c => optTruthy c.calloutID)).map getCalloutKey).Nodup)
    (hcolf : ':' ∉ fid)
    (hcolo : ∀ o ∈ focal.outlinks, ':' ∉ o.2.1) :
    (∀ a ∈ (classifyRelations focal all).outl, ∀ b ∈ (classifyRelations focal all).bidir,
        getCalloutKey a ≠ getCalloutKey b) ∧
    (∀ a ∈ (classifyRelations focal all).inl, ∀ b ∈ (classifyRelations focal all).bidir,
        getCalloutKey a ≠ getCalloutKey b) ∧
    (∀ a ∈ (classifyRelations focal all).inl, ∀ b ∈ (classifyRelations focal all).outl,
        getCalloutKey a ≠ getCalloutKey b) ∧
    (∀ o ∈ focal.outlinks, ¬(o.1 = focal.file ∧ some o.2.1 = focal.calloutID) →
        ∀ t, mapGet (buildCalloutMap all) (targetKey o.1 o.2.1) = some t →
          linksBack t focal = true → t ∈ (classifyRelations focal all).bidir) ∧
    (∀ a, (a ∈ (classifyRelations focal all).inl ∨ a ∈ (classifyRelations focal all).outl ∨
        a ∈ (classifyRelations focal all).bidir) → getCalloutKey a ≠ getCalloutKey focal) ∧
    (∀ lab, classifyRelations
        { focal with outlinks := focal.outlinks ++ [(focal.file, fid, lab)] } all =
        classifyRelations focal all) := by
  have houtl : ∀ x ∈ (classifyRelations focal all).outl,
      x ∈ all ∧ optTruthy x.calloutID = true ∧ linksBack x focal = false := by
    intro x hx
    rcases (outFold_mem focal (buildCalloutMap all) focal.outlinks ([], [])).1 x hx with
      h | ⟨o, _, _, hget, hlb⟩
    · exact absurd h (List.not_mem_nil x)
    · have hb := buildMap_mem (mapGet_mem hget)
      exact ⟨hb.2.2, hb.2.1, hlb⟩
  have hbidl : ∀ x ∈ (classifyRelations focal all).bidir,
      x ∈ all ∧ optTruthy x.calloutID = true ∧ linksBack x focal = true := by
    intro x hx
    rcases (outFold_mem focal (buildCalloutMap all) focal.outlinks ([], [])).2 x hx with
      h | ⟨o, _, _, hget, hlb⟩
    · exact absurd h (List.not_mem_nil x)
    · have hb := buildMap_mem (mapGet_mem hget)
      exact ⟨hb.2.2, hb.2.1, hlb⟩
  have hinl : ∀ x ∈ (classifyRelations focal all).inl,
      x ∈ all ∧ optTruthy x.calloutID = true ∧ linksBack x focal = true ∧
      getCalloutKey x ≠ getCalloutKey focal ∧
      ∀ b ∈ (classifyRelations focal all).bidir, getCalloutKey b ≠ getCalloutKey x := by
    intro x hx
    rcases inFold_mem focal ((processOutlinks focal (buildCalloutMap all)).2) all [] x hx with
      h | h
    · exact absurd h (List.not_mem_nil x)
    · exact ⟨h.1, h.2.1, h.2.2.1, h.2.2.2.1, h.2.2.2.2⟩
  refine ⟨?_, ?_, ?_, ?_, ?_, ?_⟩
  · intro a ha b hb hk
    have h1 := houtl a ha
    have h2 := hbidl b hb
    have hab := sameKey_eq hnd h1.1 h2.1 h1.2.1 h2.2.1 hk
    subst hab
    rw [h1.2.2] at h2
    exact Bool.false_ne_true h2.2.2
  · intro a ha b hb hk
    exact (hinl a ha).2.2.2.2 b hb hk.symm
  · intro a ha b hb hk
    have h1 := hinl a ha
    have h2 := houtl b hb
    have hab := sameKey_eq hnd h1.1 h2.1 h1.2.1 h2.2.1 hk
    subst hab
    rw [h2.2.2] at h1
    exact Bool.false_ne_true h1.2.2.1
  · intro o ho hself t hget hlb
    exact outFold_bid_complete focal (buildCalloutMap all) t hlb focal.outlinks ([], [])
      o ho hself hget
  · intro a ha
    have hfromMap : ∀ o, o ∈ focal.outlinks →
        ¬(o.1 = focal.file ∧ some o.2.1 = focal.calloutID) →
        mapGet (buildCalloutMap all) (targetKey o.1 o.2.1) = some a →
        getCalloutKey a ≠ getCalloutKey focal := by
      intro o ho hself hget hk
      have hb := buildMap_mem (mapGet_mem hget)
      have hkey : targetKey o.1 o.2.1 = getCalloutKey focal := hb.1.trans hk
      have heq : o.1 ++ ':' :: o.2.1 = focal.file ++ ':' :: fid := by
        have h2 : getCalloutKey focal = focal.file ++ ':' :: fid := by
          unfold getCalloutKey
          rw [hfid]
          rfl
        exact hkey.trans h2
      have hsp := colon_split_last (hcolo o ho) hcolf heq
      exact hself ⟨hsp.1, by rw [hsp.2, hfid]⟩
    rcases ha with ha | ha | ha
    · exact (hinl a ha).2.2.2.1
    · rcases (outFold_mem focal (buildCalloutMap all) focal.outlinks ([], [])).1 a ha with
        h | ⟨o, ho, hself, hget, _⟩
      · exact absurd h (List.not_mem_nil a)
      · exact hfromMap o ho hself hget
    · rcases (outFold_mem focal (buildCalloutMap all) focal.outlinks ([], [])).2 a ha with
        h | ⟨o, ho, hself, hget, _⟩
      · exact absurd h (List.not_mem_nil a)
      · exact hfromMap o ho hself hget
  · intro lab
    have h1 : processOutlinks
        { focal with outlinks := focal.outlinks ++ [(focal.file, fid, lab)] }
        (buildCalloutMap all) = processOutlinks focal (buildCalloutMap all) := by
      show List.foldl (outStep _ _) ([], [])
          (focal.outlinks ++ [(focal.file, fid, lab)]) = _
      rw [List.foldl_append]
      simp only [List.foldl_cons, List.foldl_nil]
      show outStep focal (buildCalloutMap all) _ _ = _
      unfold outStep
      rw [if_pos ⟨rfl, by rw [hfid]⟩]
      rfl
    show GraphSets.mk _ _ _ = GraphSets.mk _ _ _
    rw [show processInlinks
        { focal with outlinks := focal.outlinks ++ [(focal.file, fid, lab)] } all =
        processInlinks focal all from rfl]
    rw [h1]

/-- C10: every node in the layout map produced by the graph builder is bound
to a callout with a defined (truthy) id: the lookup map feeding outbound and
bidirectional nodes is keyed only by identified callouts, and the inbound scan
requires `callout.calloutID` to be truthy. -/
theorem c10_nodes_have_ids (focal : CalloutItem) (all : List CalloutItem) :
    ∀ e ∈ layoutData (classifyRelations focal all), optTruthy e.2.calloutID = true := by
  intro e he
  rcases layFold_mem _ [] e he with h | h
  · exact absurd h (List.not_mem_nil e)
  · rcases List.mem_append.mp h with h2 | h2
    · rcases List.mem_append.mp h2 with h3 | h3
      · rcases inFold_mem focal ((processOutlinks focal (buildCalloutMap all)).2) all []
          e.2 h3 with hh | hh
        · exact absurd hh (List.not_mem_nil _)
        · exact hh.2.1
      · rcases (outFold_mem focal (buildCalloutMap all) focal.outlinks ([], [])).1 e.2 h3
          with hh | ⟨o, _, _, hget, _⟩
        · exact absurd hh (List.not_mem_nil _)
        · exact (buildMap_mem (mapGet_mem hget)).2.1
    · rcases (outFold_mem focal (buildCalloutMap all) focal.outlinks ([], [])).2 e.2 h2
        with hh | ⟨o, _, _, hget, _⟩
      · exact absurd hh (List.not_mem_nil _)
      · exact (buildMap_mem (mapGet_mem hget)).2.1

/-- Focal callout of the concrete graph example: links out to `gA` (plain
outlink), `gB` (bidirectional) and to itself (discarded self-reference). -/
def gfocal : CalloutItem :=
  { file := charsOf "F.md", type := charsOf "note", title := charsOf "T",
    content := [], lineNumber := 1, calloutID := some (charsOf "f1"),
    outlinks := [(charsOf "A.md", charsOf "a1", none),
                 (charsOf "B.md", charsOf "b1", none),
                 (charsOf "F.md", charsOf "f1", none)] }

/-- Plain outbound target: does not link back. -/
def gA : CalloutItem :=
  { file := charsOf "A.md", type := charsOf "tip", title := [], content := [],
    lineNumber := 1, calloutID := some (charsOf "a1") }

/-- Bidirectional target: linked to by the focal callout and links back. -/
def gB : CalloutItem :=
  { file := charsOf "B.md", type := charsOf "info", title := [], content := [],
    lineNumber := 2, calloutID := some (charsOf "b1"),
    outlinks := [(charsOf "F.md", charsOf "f1", none)] }

/-- Plain inbound source: links to the focal callout, not linked back to. -/
def gC : CalloutItem :=
  { file := charsOf "C.md", type := charsOf "todo", title := [], content := [],
    lineNumber := 3, calloutID := some (charsOf "c1"),
    outlinks := [(charsOf "F.md", charsOf "f1", none)] }

/-- A callout without an id that links to the focal callout: must be ignored
by the graph builder. -/
def gNoId : CalloutItem :=
  { file := charsOf "N.md", type := charsOf "note", title := [], content := [],
    lineNumber := 4, calloutID := none,
    outlinks := [(charsOf "F.md", charsOf "f1", none)] }

/-- The full callout index of the graph example. -/
def gall : List CalloutItem := [gfocal, gA, gB, gC, gNoId]

theorem c7_graph_classification_witness :
    classifyRelations gfocal gall = { inl := [gC], outl := [gA], bidir := [gB] } ∧
    getCalloutKey gA ≠ getCalloutKey gB ∧
    gB ∈ (classifyRelations gfocal gall).bidir ∧
    classifyRelations
      { gfocal with outlinks := gfocal.outlinks ++ [(gfocal.file, charsOf "f1", none)] }
      gall = classifyRelations gfocal gall := by
  have h := c7_graph_classification gfocal gall (charsOf "f1") (by decide) (by decide)
    (by decide) (by decide)
  refine ⟨by decide, ?_, ?_, h.2.2.2.2.2 none⟩
  · exact h.1 gA (by decide) gB (by decide)
  · exact h.2.2.2.1 (charsOf "B.md", charsOf "b1", none) (by decide) (by decide) gB
      (by decide) (by decide)

theorem c10_nodes_have_ids_witness :
    optTruthy gC.calloutID = true :=
  c10_nodes_have_ids gfocal gall (getCalloutKey gC, gC) (by decide)

/-! ## Callout id generation (C8)

Two distinct generators exist in the source.  The view/plugin one
(`main.ts` lines 912-921, duplicated in part_001 lines 833-842) uses the
full lowercased type and six draws from a 36-character alphabet.  The
parser one (part_003 lines 284-289) truncates the type to three characters
and uses `Math.random().toString(36).substr(2, 6)`, which can also yield
fewer than six digits.  The drag handler (`modules/utils.ts` line 488)
calls `this.plugin.generateCalloutId`, and the plugin delegates to the
parser version (part_002 lines 322-324). -/

/-- `const chars = 'abcdefghijklmnopqrstuvwxyz0123456789'`. -/
def idAlphabet : Str := charsOf "abcdefghijklmnopqrstuvwxyz0123456789"

/-- A character of the class `[a-z0-9]`. -/
def isIdChar (ch : Char) : Bool := ('a' ≤ ch ∧ ch ≤ 'z') ∨ ('0' ≤ ch ∧ ch ≤ '9')

/-- `CalloutOrganizerView.generateCalloutId` (`main.ts` 912-921): lowercased
type, a dash, and six draws `chars.charAt(Math.floor(Math.random() * chars.length))`.
The random source is abstracted as `rand`; the index is reduced modulo the
alphabet length exactly as `floor(random * length)` always lies in range. -/
def viewGenerateCalloutId (rand : Nat → Nat) (c : CalloutItem) : Str :=
  toLowerStr c.type ++ '-' ::
    ((List.range 6).map (fun i => idAlphabet.getD (rand i % idAlphabet.length) '0'))

/-- `CalloutParser.generateCalloutId` (part_003 284-289): the type truncated
to three characters (`substring(0, 3)`), a dash, and
`Math.random().toString(36).substr(2, 6)` — the fractional base-36 digits of
the random number, of which at most six are taken (there may be fewer).
`rnd` stands for the digit string after `0.`. -/
def parserGenerateCalloutId (rnd : Str) (c : CalloutItem) : Str :=
  (toLowerStr c.type).take 3 ++ '-' :: rnd.take 6

/-- Full-match test for the token pattern: the type, a dash, then exactly six
characters of `[a-z0-9]`. -/
def matchesIdPattern : Str → Str → Bool
  | [], s =>
    match s with
    | '-' :: suf => suf.all isIdChar && decide (suf.length = 6)
    | _ => false
  | c :: ty, s =>
    match s with
    | c2 :: s2 => decide (c2 = c) && matchesIdPattern ty s2
    | [] => false

/-- The annotation of the spec's end-to-end example: type `note`, no id. -/
def c8note : CalloutItem :=
  { file := charsOf "A.md", type := charsOf "note", title := charsOf "Hello",
    content := [], lineNumber := 1 }

theorem matchesIdPattern_self : ∀ (ty suf : Str), suf.all isIdChar = true →
    suf.length = 6 → matchesIdPattern ty (ty ++ '-' :: suf) = true := by
  intro ty
  induction ty with
  | nil =>
    intro suf hall hlen
    simp [matchesIdPattern, hall, hlen]
  | cons c ty2 ih =>
    intro suf hall hlen
    simp [matchesIdPattern, ih suf hall hlen]

/-- C8 counterexample: the parser-side generator — the one actually reached
by the drag handler through the plugin delegate — prefixes only the first
three characters of the type, so its output on a `note` callout starts with
`not-` and never matches the spec's `note-[a-z0-9]` (six) pattern, even when
the random suffix happens to have the full six digits. -/
theorem c8_generated_id_counterexample :
    c8note.calloutID = none ∧
    parserGenerateCalloutId (charsOf "abc123") c8note = charsOf "not-abc123" ∧
    matchesIdPattern (charsOf "note")
      (parserGenerateCalloutId (charsOf "abc123") c8note) = false := by
  decide

/-- C8 amended: the view's generator (`main.ts` 912-921) always produces a
token matching `type-[a-z0-9]` (six), for every callout and every random
source; the parser's generator never matches the `note-` pattern for the
spec's example callout, whatever the random digit string. -/
theorem c8_generated_id_amended (rand : Nat → Nat) (c : CalloutItem) :
    matchesIdPattern (toLowerStr c.type) (viewGenerateCalloutId rand c) = true ∧
    (∀ rnd : Str, matchesIdPattern (charsOf "note")
      (parserGenerateCalloutId rnd c8note) = false) := by
  constructor
  · have hall : ∀ ch ∈ idAlphabet, isIdChar ch = true := by decide
    have hch : ∀ n : Nat, isIdChar (idAlphabet.getD (n % idAlphabet.length) '0') = true := by
      intro n
      have hlt : n % idAlphabet.length < idAlphabet.length :=
        Nat.mod_lt _ (by decide)
      rw [List.getD_eq_get _ _ hlt]
      exact hall _ (List.get_mem _ _ _)
    apply matchesIdPattern_self
    · simp only [List.all_eq_true]
      intro x hx
      rcases List.mem_map.mp hx with ⟨i, _, hxeq⟩
      rw [← hxeq]
      exact hch (rand i)
    · simp
  · intro rnd
    have h1 : parserGenerateCalloutId rnd c8note = 'n' :: 'o' :: 't' :: '-' :: rnd.take 6 := by
      unfold parserGenerateCalloutId
      rw [show (toLowerStr c8note.type).take 3 = ['n', 'o', 't'] from by decide]
      rfl
    rw [h1]
    show matchesIdPattern ('n' :: 'o' :: 't' :: 'e' :: []) _ = false
    simp [matchesIdPattern]

/-! ## Regex-scan loops and iteration caps (C9)

`CalloutOrganizerPlugin.getAllCalloutTypesInVault` (`main.ts` 1358-1393)
scans each document with `/^>\s*\[!([^\]]+)\]/gm` inside
`while ((match = calloutRegex.exec(content)) !== null && iterations < MAX_ITERATIONS)`
with `MAX_ITERATIONS = 1000`; each processed match appends
`match[1].toLowerCase().trim()` and increments `iterations`, so at most 1000
values are collected per document and whatever was collected is kept.  Its
zero-width-match guard is unreachable because every match spans at least
five characters.  `CalloutParser.extractOutlinksFromContent` (part_003
258-279), by contrast, has no iteration cap at all. -/

/-- One anchored attempt of `/^>\s*\[!([^\]]+)\]/` at a line start: `>`,
greedy whitespace (which may cross newlines), `[!`, a nonempty run without
`]` (also free to cross newlines), then `]`.  Returns the raw capture and
the text after the match. -/
def typeMatchAt (s : Str) : Option (Str × Str) :=
  match s with
  | '>' :: t =>
    match t.dropWhile isWs with
    | '[' :: '!' :: u =>
      let ty := u.takeWhile (fun c => c ≠ ']')
      if ty.isEmpty then none
      else
        match u.drop ty.length with
        | ']' :: r => some (ty, r)
        | _ => none
    | _ => none
  | _ => none

/-- The `exec` loop of the vault type scan over one document, recording the
sequence of values passed to `calloutTypes.add`.  `its` is the `iterations`
counter; attempts happen only at line starts (`atStart`), and after a match
the scan resumes right after the closing `]` (which is never a line start).
The `exec`/cap test order of the source is kept: a match found when
`its = 1000` is discarded and the loop exits with the partial result.  The
fuel is structural-recursion fuel; every step consumes at least one
character, so `content.length` suffices (see `getFileCalloutTypes`). -/
def typeScanAux : Nat → Nat → Bool → Str → List Str
  | 0, _, _, _ => []
  | fuel + 1, its, atStart, s =>
    match s with
    | [] => []
    | c :: t =>
      if atStart then
        match typeMatchAt s with
        | some (ty, r) =>
          if its < 1000 then
            trimStr (toLowerStr ty) :: typeScanAux fuel (its + 1) false r
          else []
        | none => typeScanAux fuel its (c = '\n') t
      else typeScanAux fuel its (c = '\n') t

/-- The per-document part of `getAllCalloutTypesInVault`: `lastIndex` reset
to 0, `iterations` to 0, position 0 is a line start. -/
def getFileCalloutTypes (content : Str) : List Str :=
  typeScanAux content.length 0 true content

theorem typeScanAux_cap : ∀ (fuel its : Nat) (atStart : Bool) (s : Str),
    (typeScanAux fuel its atStart s).length ≤ 1000 - its := by
  intro fuel
  induction fuel with
  | zero => intro its atStart s; simp [typeScanAux]
  | succ n ih =>
    intro its atStart s
    rw [typeScanAux.eq_def]
    rcases s with _ | ⟨c, t⟩
    · simp
    · dsimp only
      by_cases hst : atStart = true
      · rw [if_pos hst]
        rcases hm : typeMatchAt (c :: t) with _ | ⟨ty, r⟩
        · exact ih its (c = '\n') t
        · dsimp only
          by_cases hits : its < 1000
          · rw [if_pos hits]
            have := ih (its + 1) false r
            simp only [List.length_cons]
            omega
          · rw [if_neg hits]
            simp
      · rw [if_neg hst]
        exact ih its (c = '\n') t

theorem extractOutlinksAux_le : ∀ (fuel : Nat) (s : Str),
    (extractOutlinksAux fuel s).length ≤ fuel := by
  intro fuel
  induction fuel with
  | zero => intro s; simp [extractOutlinksAux]
  | succ n ih =>
    intro s
    rw [extractOutlinksAux.eq_def]
    dsimp only
    rcases hml : matchLinkAt s with _ | lkr
    · rcases s with _ | ⟨c, t⟩
      · simp
      · dsimp only
        have := ih t
        omega
    · dsimp only
      have := ih lkr.2
      simp only [List.length_cons]
      omega

theorem matchLinkAt_unit (rest : Str) :
    matchLinkAt (charsOf "[[a#^b]]" ++ rest) =
      some ((charsOf "a.md", charsOf "b", none), rest) := rfl

theorem extractOutlinks_units_aux : ∀ (n fuel : Nat),
    8 * n ≤ fuel →
    extractOutlinksAux fuel ((List.replicate n (charsOf "[[a#^b]]")).flatten) =
      List.replicate n (charsOf "a.md", charsOf "b", none) := by
  intro n
  induction n with
  | zero =>
    intro fuel _
    rcases fuel with _ | f
    · rfl
    · rfl
  | succ k ih =>
    intro fuel hle
    rcases fuel with _ | f
    · omega
    · rw [List.replicate_succ, List.flatten_cons]
      rw [extractOutlinksAux.eq_def]
      dsimp only
      rw [matchLinkAt_unit]
      dsimp only
      rw [List.replicate_succ]
      rw [ih f (by omega)]

/-- The whole-content lengths line up: each unit is 8 characters. -/
theorem extractOutlinks_units (n : Nat) :
    extractOutlinksFromContent ((List.replicate n (charsOf "[[a#^b]]")).flatten) =
      List.replicate n (charsOf "a.md", charsOf "b", none) := by
  unfold extractOutlinksFromContent
  apply extractOutlinks_units_aux
  have h : ((List.replicate n (charsOf "[[a#^b]]")).flatten).length = n * 8 := by
    rw [List.length_flatten, List.map_replicate]
    rw [show (charsOf "[[a#^b]]").length = 8 from rfl]
    rw [List.sum_replicate]
    simp
  omega

/-- C9 counterexample: the outlink-extraction loop of
`extractOutlinksFromContent` has no iteration cap — on a document holding
1001 links it runs 1001 iterations and returns all 1001 results, exceeding
the 1000-iteration bound that the spec requires (and that the vault type
scan does enforce). -/
theorem c9_outlink_cap_counterexample :
    (extractOutlinksFromContent
      ((List.replicate 1001 (charsOf "[[a#^b]]")).flatten)).length = 1001 := by
  rw [extractOutlinks_units]
  exact List.length_replicate 1001 _

/-- C9 amended: the vault type scan (`getAllCalloutTypesInVault`) does
enforce the 1000-iteration cap — for every document text at most 1000 types
are collected, and what was collected before the cap is kept; the outlink
scan has no cap, but terminates on every input regardless, with at most one
result per character of the text. -/
theorem c9_scan_caps_amended :
    (∀ content : Str, (getFileCalloutTypes content).length ≤ 1000) ∧
    (∀ content : Str, (extractOutlinksFromContent content).length ≤ content.length) := by
  constructor
  · intro content
    have := typeScanAux_cap content.length 0 true content
    simpa using this
  · intro content
    exact extractOutlinksAux_le content.length content

end CalloutOrganizer
